import Mathlib

/-!
# chat-webSocket: room registry, relay framing and connection pump

A shallow embedding of the Go sources

* `model/client.go`, `model/room.go`, `model/message.go` (data model),
* `usecase/room_usecase.go` (room registry, join / leave / remove, local fanout),
* `usecase/message_usecase.go`, `service/message_service.go` (persist and broadcast),
* `redis/pubsub.go` (`Publish` framing of the payload),
* `api/websocket_handler.go` (`readMessages`, `handleMessage`),

followed by theorems about them.

Modelling conventions.

* Go `string` values are Lean `String`s.  Only the ASCII bytes `|`, `"`, `\` and the
  control / HTML characters are ever inspected by the code, so a split on the character `|`
  coincides with the split on the byte `0x7C`.
* A Go `map[string]T` is an association list `List (String × T)`.  The functions below do not
  require the keys to be distinct; `RoomUseCase.WF` states that they are, and it is shown to
  hold in every reachable state.  Ranging over a map visits the entries in list order (one of
  the orders the Go runtime may choose).
* Operations are executed one at a time, so no lock ever blocks.  Every call made on a
  collaborator (relay, connection, database, logger) is recorded, in program order, as an
  `Effect`; a `go` statement records the call it starts.  For the lock discipline the
  operations of the room manager are also given as lists of `Step`s, the lock and unlock
  operations interleaved with the same calls.
* Results of collaborators that the code only inspects for logging (`error` returns) are
  inputs of the model.
-/

namespace ChatWebSocket

/-! ## Go maps as association lists -/

/-- Lookup `m[key]` with the comma-ok result as an `Option`. -/
def mapGet {β : Type} : List (String × β) → String → Option β
  | [], _ => none
  | (k, v) :: rest, key => if k = key then some v else mapGet rest key

/-- Assignment `m[key] = val`. -/
def mapSet {β : Type} : List (String × β) → String → β → List (String × β)
  | [], key, val => [(key, val)]
  | (k, v) :: rest, key, val =>
    if k = key then (k, val) :: rest else (k, v) :: mapSet rest key val

/-- Builtin `delete(m, key)`. -/
def mapDelete {β : Type} : List (String × β) → String → List (String × β)
  | [], _ => []
  | (k, v) :: rest, key =>
    if k = key then mapDelete rest key else (k, v) :: mapDelete rest key

/-- The keys of a map, in iteration order. -/
def mapKeys {β : Type} (m : List (String × β)) : List String := m.map Prod.fst

/-! ## Data model (`model/*.go`) -/

/-- The struct `model.Client`.  `Conn` is the `*websocket.Conn`, `none` standing for `nil`;
the write mutex is not modelled. -/
structure Client where
  ID : String
  Conn : Option Nat
  ClientID : String
  Email : String
  Name : String
  Status : Int
  SenderID : String
  deriving DecidableEq, Repr

/-- The struct `model.ClientConn`; `Conn` is the pointer to the client. -/
structure ClientConn where
  ID : String
  Conn : Client
  deriving DecidableEq, Repr

/-- The struct `model.Room`; the mutex is not modelled. -/
structure Room where
  Name : String
  Clients : List (String × ClientConn)
  deriving DecidableEq, Repr

/-- The struct `model.Message`; `CreatedAt` is kept as an integer time stamp. -/
structure Message where
  ID : Int
  SenderID : String
  RoomID : String
  Content : String
  CreatedAt : Int
  Action : String
  deriving DecidableEq, Repr

/-- Calls made on collaborators, recorded in program order. -/
inductive Effect where
  /-- The call `pubSubRepo.Publish(ctx, roomName, message)`. -/
  | Publish (roomName : String) (message : String)
  /-- The call `go pubSubRepo.Subscribe(ctx, roomName, handler)`; the handler registered is
  the closure of `startPubSubListener` for `roomName`. -/
  | Subscribe (roomName : String)
  /-- The call `pubSubRepo.Unsubscribe(ctx, roomName)`. -/
  | Unsubscribe (roomName : String)
  /-- The call `cc.Conn.Conn.WriteMessage(websocket.TextMessage, []byte(data))` made for the
  room entry `cc`. -/
  | WriteMessage (cc : ClientConn) (data : String)
  /-- The call `MessageRepo.CreateMessage(&msg)`. -/
  | CreateMessage (msg : Message)
  /-- A line handed to `log.Printf`. -/
  | Log (line : String)
  deriving DecidableEq, Repr

/-- The relay calls among the effects. -/
def Effect.isRelay : Effect → Bool
  | .Publish _ _ => true
  | .Subscribe _ => true
  | .Unsubscribe _ => true
  | _ => false

/-! ## Room manager (`usecase/room_usecase.go`) -/

/-- The struct `usecase.RoomUseCase`: the registry `rooms`.  The relay `pubSubRepo` is a
collaborator whose calls are recorded as effects. -/
structure RoomUseCase where
  rooms : List (String × Room)
  deriving DecidableEq, Repr

/-- The constructor `NewRoomUseCase`: an empty registry. -/
def NewRoomUseCase : RoomUseCase := { rooms := [] }

/-- The effects of `startPubSubListener`: one subscription started, one log line. -/
def startPubSubListener (roomName : String) : List Effect :=
  [ Effect.Subscribe roomName,
    Effect.Log ("[RoomUseCase] Started PubSub listener for room " ++ roomName) ]

/-- The method `RoomUseCase.JoinRoom`. -/
def JoinRoom (uc : RoomUseCase) (client : Client) (roomName : String) :
    RoomUseCase × List Effect :=
  let created : List (String × Room) × Room × List Effect :=
    match mapGet uc.rooms roomName with
    | some room => (uc.rooms, room, [])
    | none =>
      let room : Room := { Name := roomName, Clients := [] }
      (mapSet uc.rooms roomName room, room, startPubSubListener roomName)
  let room := created.2.1
  let room1 : Room :=
    { room with Clients := mapSet room.Clients client.ID { ID := client.ID, Conn := client } }
  ({ rooms := mapSet created.1 roomName room1 },
    created.2.2 ++
      [ Effect.Log ("[RoomUseCase] Client " ++ client.ID ++ " joined room " ++ roomName),
        Effect.Publish roomName (roomName ++ "|" ++ client.ID ++ " joined the room") ])

/-- The method `RoomUseCase.LeaveRoom`. -/
def LeaveRoom (uc : RoomUseCase) (clientID roomName : String) : RoomUseCase × List Effect :=
  match mapGet uc.rooms roomName with
  | none => (uc, [Effect.Log ("[RoomUseCase] Room " ++ roomName ++ " does not exist")])
  | some room =>
    let room1 : Room := { room with Clients := mapDelete room.Clients clientID }
    let rooms1 := mapSet uc.rooms roomName room1
    let empty : Bool := room1.Clients.length == 0
    let torn : List (String × Room) × List Effect :=
      if empty then (mapDelete rooms1 roomName, [Effect.Unsubscribe roomName])
      else (rooms1, [])
    ({ rooms := torn.1 },
      torn.2 ++
        [ Effect.Log ("[RoomUseCase] Client " ++ clientID ++ " left room " ++ roomName),
          Effect.Publish roomName (roomName ++ "|" ++ clientID ++ " left the room") ])

/-- The loop of `RoomUseCase.RemoveClient` over the registry entries: each iteration touches
only the entry it visits (it removes the client from that room and, when the room became
empty, deletes that entry). -/
def RemoveClient.range (clientID : String) :
    List (String × Room) → List (String × Room) × List Effect
  | [] => ([], [])
  | (roomName, room) :: rest =>
    let tail := RemoveClient.range clientID rest
    match mapGet room.Clients clientID with
    | some _ =>
      let room1 : Room := { room with Clients := mapDelete room.Clients clientID }
      let removed :=
        Effect.Log ("[RoomUseCase] Client " ++ clientID ++ " removed from room " ++ roomName)
      let left := Effect.Publish roomName (roomName ++ "|" ++ clientID ++ " left the room")
      if room1.Clients.length == 0 then
        (tail.1, removed :: Effect.Unsubscribe roomName :: left :: tail.2)
      else
        ((roomName, room1) :: tail.1, removed :: left :: tail.2)
    | none => ((roomName, room) :: tail.1, tail.2)

/-- The method `RoomUseCase.RemoveClient`. -/
def RemoveClient (uc : RoomUseCase) (clientID : String) : RoomUseCase × List Effect :=
  let r := RemoveClient.range clientID uc.rooms
  ({ rooms := r.1 }, r.2)

/-- The method `RoomUseCase.BroadcastMessage`.  `publishErr` is the error returned by
`Publish` (`none` for `nil`). -/
def BroadcastMessage (roomName message : String) (publishErr : Option String) : List Effect :=
  Effect.Publish roomName (roomName ++ "|" ++ message) ::
    match publishErr with
    | some err =>
      [Effect.Log ("[RoomUseCase] Failed to broadcast message to room " ++ roomName ++ ": " ++ err)]
    | none => []

/-- The body of one fanout goroutine of `BroadcastToLocalRoom`: nothing when the connection is
`nil`, else one write, and a log line when `writeErr` reports that write as failed. -/
def BroadcastToLocalRoom.send (writeErr : ClientConn → Option String) (message : String)
    (cc : ClientConn) : List Effect :=
  match cc.Conn.Conn with
  | none => []
  | some _ =>
    Effect.WriteMessage cc message ::
      match writeErr cc with
      | some err => [Effect.Log ("Failed to send message to client " ++ cc.ID ++ ": " ++ err)]
      | none => []

/-- The method `RoomUseCase.BroadcastToLocalRoom`; `writeErr` gives the result of the write
made for each room entry. -/
def BroadcastToLocalRoom (uc : RoomUseCase) (writeErr : ClientConn → Option String)
    (roomName message : String) : List Effect :=
  match mapGet uc.rooms roomName with
  | none =>
    [Effect.Log ("[RoomUseCase] Room " ++ roomName ++ " does not exist for local broadcast.")]
  | some room =>
    (room.Clients.map (fun e => BroadcastToLocalRoom.send writeErr message e.2)).flatten

/-! ## Sequences of room operations -/

/-- One call on the room manager. -/
inductive Op where
  | JoinRoom (client : Client) (roomName : String)
  | LeaveRoom (clientID roomName : String)
  | RemoveClient (clientID : String)
  deriving DecidableEq, Repr

/-- Executes one call. -/
def Op.apply (uc : RoomUseCase) : Op → RoomUseCase × List Effect
  | .JoinRoom client roomName => ChatWebSocket.JoinRoom uc client roomName
  | .LeaveRoom clientID roomName => ChatWebSocket.LeaveRoom uc clientID roomName
  | .RemoveClient clientID => ChatWebSocket.RemoveClient uc clientID

/-- Executes a sequence of calls one at a time, collecting the effects. -/
def exec (uc : RoomUseCase) : List Op → RoomUseCase × List Effect
  | [] => (uc, [])
  | op :: rest =>
    let r1 := op.apply uc
    let r2 := exec r1.1 rest
    (r2.1, r1.2 ++ r2.2)

/-- The state and effects after a sequence of calls on a fresh room manager. -/
def run (ops : List Op) : RoomUseCase × List Effect := exec NewRoomUseCase ops

/-- The names of the rooms in the registry. -/
def RoomUseCase.roomNames (uc : RoomUseCase) : List String := mapKeys uc.rooms

/-- The number of members of room `r`: `len(room.Clients)`, and zero for a room that is not
in the registry. -/
def RoomUseCase.memberCount (uc : RoomUseCase) (r : String) : Nat :=
  match mapGet uc.rooms r with
  | some room => room.Clients.length
  | none => 0

/-- Whether `clientID` is a key of the `Clients` map of room `r`. -/
def RoomUseCase.isMember (uc : RoomUseCase) (clientID r : String) : Bool :=
  match mapGet uc.rooms r with
  | some room => (mapGet room.Clients clientID).isSome
  | none => false

/-- The registry is a well-formed Go state: the room names are distinct, every room is stored
under its own name, the client ids of a room are distinct, and every entry of a room is the
`ClientConn` that `JoinRoom` builds for the client stored under that id. -/
def RoomUseCase.WF (uc : RoomUseCase) : Prop :=
  (mapKeys uc.rooms).Nodup ∧
    ∀ e ∈ uc.rooms, e.2.Name = e.1 ∧ (mapKeys e.2.Clients).Nodup ∧
      ∀ m ∈ e.2.Clients, m.2.ID = m.1 ∧ m.2.Conn.ID = m.1

instance (uc : RoomUseCase) : Decidable uc.WF := by
  unfold RoomUseCase.WF; infer_instance

/-- The `WriteMessage` calls among the effects. -/
def Effect.isWrite : Effect → Bool
  | .WriteMessage _ _ => true
  | _ => false

/-- The number of `Subscribe` calls for room `r` among the effects. -/
def subscribeCount (fx : List Effect) (r : String) : Nat :=
  fx.count (Effect.Subscribe r)

/-- The number of `Unsubscribe` calls for room `r` among the effects. -/
def unsubscribeCount (fx : List Effect) (r : String) : Nat :=
  fx.count (Effect.Unsubscribe r)

/-! ## Relay framing (`redis/pubsub.go`, `startPubSubListener`) -/

/-- The double quote character. -/
def dquote : Char := Char.ofNat 34

/-- The backslash character. -/
def backslash : Char := Char.ofNat 92

/-- The table `hex` of `encoding/json`. -/
def hexDigit (n : Nat) : Char :=
  ['0', '1', '2', '3', '4', '5', '6', '7', '8', '9', 'a', 'b', 'c', 'd', 'e', 'f'].getD n '0'

/-- How `json.Marshal` writes one character of a string (HTML escaping on, as `Marshal`
sets it): quote and backslash get a backslash, the control characters their short or
`u00XX` form, `<`, `>`, `&` and U+2028, U+2029 their `uXXXX` form, every other character
is copied. -/
def jsonEscapeChar (c : Char) : List Char :=
  if c = backslash ∨ c = dquote then [backslash, c]
  else if c = Char.ofNat 8 then [backslash, 'b']
  else if c = Char.ofNat 12 then [backslash, 'f']
  else if c = Char.ofNat 10 then [backslash, 'n']
  else if c = Char.ofNat 13 then [backslash, 'r']
  else if c = Char.ofNat 9 then [backslash, 't']
  else if c.toNat < 32 ∨ c = '<' ∨ c = '>' ∨ c = '&' then
    [backslash, 'u', '0', '0', hexDigit (c.toNat / 16), hexDigit (c.toNat % 16)]
  else if c = Char.ofNat 8232 ∨ c = Char.ofNat 8233 then
    [backslash, 'u', '2', '0', '2', hexDigit (c.toNat % 16)]
  else [c]

/-- The result of `json.Marshal(message)` for a `message` that is a Go string: the escaped
characters between two double quotes. -/
def jsonMarshal (message : String) : String :=
  String.mk (dquote :: (message.data.map jsonEscapeChar).flatten ++ [dquote])

/-- The method `pubSubRepository.Publish` for a string message: the channel and the bytes
handed to the relay client (`r.client.Publish(ctx, channel, msgJSON)`). -/
def pubSubRepository.Publish (roomName message : String) : String × String :=
  ("room:" ++ roomName, jsonMarshal message)

/-- Splits at the first occurrence of `sep`, as `strings.Index` and the two slices of
`strings.SplitN` do. -/
def cutAt (sep : Char) : List Char → Option (List Char × List Char)
  | [] => none
  | c :: rest =>
    if c = sep then some ([], rest)
    else match cutAt sep rest with
      | some p => some (c :: p.1, p.2)
      | none => none

/-- The loop of `strings.SplitN`: at most `k` cuts, the last part is the unsplit rest. -/
def SplitN.loop (sep : Char) : Nat → List Char → List (List Char)
  | 0, s => [s]
  | k + 1, s =>
    match cutAt sep s with
    | none => [s]
    | some p => p.1 :: SplitN.loop sep k p.2

/-- The function `strings.SplitN(s, sep, n)` for a one-character separator and `n ≥ 0`. -/
def SplitN (s : String) (sep : Char) (n : Nat) : List String :=
  if n = 0 then [] else (SplitN.loop sep (n - 1) s.data).map String.mk

/-- The handler that `startPubSubListener` registers, up to the call it makes: the text it
passes to `BroadcastToLocalRoom`, or `none` when it logs the payload as invalid and
returns. -/
def startPubSubListener.content (payload : String) : Option String :=
  let parts := SplitN payload '|' 2
  if parts.length ≠ 2 then none else parts.get? 1

/-- The handler that `startPubSubListener` registers for `roomName`, run on one payload. -/
def startPubSubListener.handler (uc : RoomUseCase) (writeErr : ClientConn → Option String)
    (roomName payload : String) : List Effect :=
  match startPubSubListener.content payload with
  | none =>
    [Effect.Log ("[RoomUseCase] Invalid broadcast for room " ++ roomName ++ ": " ++ payload)]
  | some content => BroadcastToLocalRoom uc writeErr roomName content

/-- The text the handler of room `roomName` passes to `BroadcastToLocalRoom` when
`BroadcastMessage(roomName, content)` publishes through `pubSubRepository.Publish` and the
relay delivers the published bytes unchanged. -/
def relayedContent (roomName content : String) : Option String :=
  startPubSubListener.content
    (pubSubRepository.Publish roomName (roomName ++ "|" ++ content)).2

/-! ## Persist and broadcast (`usecase/message_usecase.go`, `service/message_service.go`) -/

/-- The method `messageServiceImpl.BroadcastMessage`: the effects and the error returned. -/
def messageServiceImpl.BroadcastMessage (roomName message : String)
    (publishErr : Option String) : List Effect × Option String :=
  (Effect.Publish roomName (roomName ++ "|" ++ message) ::
    match publishErr with
    | some err => [Effect.Log ("Failed to broadcast message to room " ++ roomName ++ ": " ++ err)]
    | none => [],
   publishErr)

/-- The method `MessageUseCase.ProcessMessage`; `createErr` and `publishErr` are the results
of `CreateMessage` and of the relay `Publish`. -/
def ProcessMessage (msg : Message) (createErr publishErr : Option String) : List Effect :=
  let saved : List Effect :=
    Effect.CreateMessage msg ::
      match createErr with
      | some err => [Effect.Log ("[MessageUseCase] Failed to save message: " ++ err)]
      | none => [Effect.Log "[MessageUseCase] Message saved successfully."]
  let sent := messageServiceImpl.BroadcastMessage msg.RoomID msg.Content publishErr
  saved ++ sent.1 ++
    match sent.2 with
    | some err =>
      [Effect.Log ("[MessageUseCase] Failed to broadcast message: " ++ msg.SenderID ++ ": " ++ err)]
    | none =>
      [Effect.Log ("[MessageUseCase] Message broadcasted successfully: " ++ msg.SenderID ++ ".")]

/-! ## Connection pump (`api/websocket_handler.go`) -/

/-- The method `WebSocketHandler.handleMessage`. -/
def handleMessage (uc : RoomUseCase) (client : Client) (msg : Message)
    (createErr publishErr : Option String) : RoomUseCase × List Effect :=
  if msg.RoomID = "" then
    (uc, [Effect.Log ("Error: RoomID is empty in message from client " ++ client.ID)])
  else
    let msg1 : Message := { msg with SenderID := client.SenderID }
    if msg1.Action = "join" then JoinRoom uc client msg1.RoomID
    else if msg1.Action = "leave" then LeaveRoom uc client.ID msg1.RoomID
    else if msg1.Action = "message" then (uc, ProcessMessage msg1 createErr publishErr)
    else (uc, [Effect.Log ("Unknown action: " ++ msg1.Action)])

/-- The outcome of one `conn.ReadMessage()` call. -/
inductive ReadResult where
  /-- A frame was read. -/
  | data (bytes : String)
  /-- An error that is a `net.Error` with `Timeout()` true. -/
  | timeout
  /-- Any other error. -/
  | failure
  deriving DecidableEq, Repr

/-- What `readMessages` does besides reading. -/
inductive PumpEffect where
  | ReadErrorsInc
  | MessagesReadInc
  /-- The call `time.Sleep` with its duration in minutes. -/
  | Sleep (minutes : Nat)
  /-- The send `messageChan <- data`. -/
  | Send (bytes : String)
  | Log (line : String)
  /-- The deferred `close(messageChan)`. -/
  | Close
  deriving DecidableEq, Repr

/-- The constant `maxTimeouts` of `readMessages`. -/
def maxTimeouts : Nat := 5

/-- The state of the loop of `readMessages` with what it has done so far. -/
structure ReaderRun where
  /-- The effects of every iteration performed, one list per `ReadMessage` call. -/
  iterations : List (List PumpEffect)
  /-- The variable `timeoutCount` after the last iteration performed. -/
  timeoutCount : Nat
  /-- The loop was left and the channel closed. -/
  stopped : Bool
  deriving DecidableEq, Repr

/-- The loop of `readMessages` from a value of `timeoutCount`, over the results of the
successive `ReadMessage` calls.  When the results are used up the reader is waiting in the
next read, not stopped.  The text of the error is left out of the log lines. -/
def readMessages.loop (timeoutCount : Nat) : List ReadResult → ReaderRun
  | [] => { iterations := [], timeoutCount := timeoutCount, stopped := false }
  | .data bytes :: rest =>
    let r := readMessages.loop 0 rest
    { r with iterations := [PumpEffect.MessagesReadInc, PumpEffect.Send bytes] :: r.iterations }
  | .timeout :: rest =>
    let count := timeoutCount + 1
    let line := PumpEffect.Log
      ("WebSocket read timeout (" ++ toString count ++ "/" ++ toString maxTimeouts ++ ")")
    if count ≥ maxTimeouts then
      { iterations :=
          [[PumpEffect.ReadErrorsInc, line,
            PumpEffect.Log "Maximum timeout reached. Closing connection.", PumpEffect.Close]],
        timeoutCount := count, stopped := true }
    else
      let r := readMessages.loop count rest
      { r with iterations := [PumpEffect.ReadErrorsInc, line, PumpEffect.Sleep 1] :: r.iterations }
  | .failure :: _ =>
    { iterations :=
        [[PumpEffect.ReadErrorsInc, PumpEffect.Log "WebSocket read error (non-timeout)",
          PumpEffect.Close]],
      timeoutCount := timeoutCount, stopped := true }

/-- The method `WebSocketHandler.readMessages`: the loop started with `timeoutCount := 0`. -/
def readMessages (reads : List ReadResult) : ReaderRun := readMessages.loop 0 reads

/-- The reader stops at position `i`: the `ReadMessage` call number `i` (from zero) is the
last one it makes. -/
def stopsAt (reads : List ReadResult) (i : Nat) : Prop :=
  (readMessages reads).stopped = true ∧ (readMessages reads).iterations.length = i + 1

/-- Position `i` of the read results ends the connection according to the timeout policy: it
is a non-timeout error, or it is a timeout and so are the four results before it. -/
def isStopPosition (reads : List ReadResult) (i : Nat) : Prop :=
  reads[i]? = some ReadResult.failure ∨
    (4 ≤ i ∧ ∀ j, i - 4 ≤ j → j ≤ i → reads[j]? = some ReadResult.timeout)

/-- The number of cooldown waits among the effects of an iteration. -/
def sleepCount (fx : List PumpEffect) : Nat :=
  fx.countP (fun e => match e with
    | .Sleep _ => true
    | _ => false)

/-- The log lines among the effects. -/
def Effect.isLog : Effect → Bool
  | .Log _ => true
  | _ => false

/-- A message for the examples. -/
def exampleMessage (room action content : String) : Message :=
  { ID := 0, SenderID := "", RoomID := room, Content := content, CreatedAt := 0,
    Action := action }

/-! ## Lock discipline of the room manager (`usecase/room_usecase.go`) -/

/-- One step of an operation of the room manager, in program order: an operation on the
registry lock `uc.mutex`, an operation on the lock `room.Mutex` of the room stored under a
name, or a call on a collaborator. -/
inductive Step where
  | RegistryLock
  | RegistryUnlock
  | RegistryRLock
  | RegistryRUnlock
  | RoomLock (roomName : String)
  | RoomUnlock (roomName : String)
  | RoomRLock (roomName : String)
  | RoomRUnlock (roomName : String)
  | Call (e : Effect)
  deriving DecidableEq, Repr

/-- The calls on collaborators among the steps. -/
def Step.calls : List Step → List Effect
  | [] => []
  | .Call e :: rest => e :: Step.calls rest
  | _ :: rest => Step.calls rest

/-- Whether a relay call occurs in the steps while a room lock is held, `held` being the room
locks held before the first step. -/
def relayUnderRoomLock.scan : List String → List Step → Bool
  | _, [] => false
  | held, .RoomLock roomName :: rest => relayUnderRoomLock.scan (roomName :: held) rest
  | held, .RoomRLock roomName :: rest => relayUnderRoomLock.scan (roomName :: held) rest
  | held, .RoomUnlock roomName :: rest => relayUnderRoomLock.scan (held.erase roomName) rest
  | held, .RoomRUnlock roomName :: rest => relayUnderRoomLock.scan (held.erase roomName) rest
  | held, .Call e :: rest =>
    (e.isRelay && !held.isEmpty) || relayUnderRoomLock.scan held rest
  | held, _ :: rest => relayUnderRoomLock.scan held rest

/-- Whether some relay call of an operation is made while the operation holds a room lock. -/
def relayUnderRoomLock (steps : List Step) : Bool := relayUnderRoomLock.scan [] steps

/-- The steps of `RoomUseCase.JoinRoom`: the listener is started under the registry lock, the
room lock is taken and released around the insertion, the notification is published after
both locks are released. -/
def JoinRoom.steps (uc : RoomUseCase) (client : Client) (roomName : String) : List Step :=
  Step.RegistryLock ::
    (match mapGet uc.rooms roomName with
      | some _ => []
      | none => (startPubSubListener roomName).map Step.Call) ++
    [ Step.RoomLock roomName, Step.RoomUnlock roomName, Step.RegistryUnlock,
      Step.Call (Effect.Log ("[RoomUseCase] Client " ++ client.ID ++ " joined room " ++ roomName)),
      Step.Call (Effect.Publish roomName (roomName ++ "|" ++ client.ID ++ " joined the room")) ]

/-- The steps of `RoomUseCase.LeaveRoom`. -/
def LeaveRoom.steps (uc : RoomUseCase) (clientID roomName : String) : List Step :=
  Step.RegistryRLock :: Step.RegistryRUnlock ::
    match mapGet uc.rooms roomName with
    | none => [Step.Call (Effect.Log ("[RoomUseCase] Room " ++ roomName ++ " does not exist"))]
    | some room =>
      [Step.RoomLock roomName, Step.RoomUnlock roomName] ++
        (if (mapDelete room.Clients clientID).length == 0 then
          [Step.RegistryLock, Step.RegistryUnlock, Step.Call (Effect.Unsubscribe roomName)]
        else []) ++
        [ Step.Call (Effect.Log ("[RoomUseCase] Client " ++ clientID ++ " left room " ++ roomName)),
          Step.Call (Effect.Publish roomName (roomName ++ "|" ++ clientID ++ " left the room")) ]

/-- The steps of the loop of `RoomUseCase.RemoveClient`: the body of every iteration runs
between `room.Mutex.Lock()` and `room.Mutex.Unlock()`. -/
def RemoveClient.rangeSteps (clientID : String) : List (String × Room) → List Step
  | [] => []
  | (roomName, room) :: rest =>
    Step.RoomLock roomName ::
      ((match mapGet room.Clients clientID with
        | some _ =>
          Step.Call
              (Effect.Log ("[RoomUseCase] Client " ++ clientID ++ " removed from room " ++ roomName)) ::
            ((if (mapDelete room.Clients clientID).length == 0 then
                [Step.Call (Effect.Unsubscribe roomName)]
              else []) ++
              [Step.Call
                (Effect.Publish roomName (roomName ++ "|" ++ clientID ++ " left the room"))])
        | none => []) ++
        Step.RoomUnlock roomName :: RemoveClient.rangeSteps clientID rest)

/-- The steps of `RoomUseCase.RemoveClient`: the registry lock is held from the first line to
the deferred unlock. -/
def RemoveClient.steps (uc : RoomUseCase) (clientID : String) : List Step :=
  Step.RegistryLock :: (RemoveClient.rangeSteps clientID uc.rooms ++ [Step.RegistryUnlock])

/-- The steps of `RoomUseCase.BroadcastMessage`: no lock is taken. -/
def BroadcastMessage.steps (roomName message : String) (publishErr : Option String) :
    List Step :=
  (BroadcastMessage roomName message publishErr).map Step.Call

/-- The steps of `RoomUseCase.BroadcastToLocalRoom`: the fanout is started under the read
lock of the room, released by the deferred unlock. -/
def BroadcastToLocalRoom.steps (uc : RoomUseCase) (writeErr : ClientConn → Option String)
    (roomName message : String) : List Step :=
  Step.RegistryRLock :: Step.RegistryRUnlock ::
    match mapGet uc.rooms roomName with
    | none =>
      [Step.Call
        (Effect.Log ("[RoomUseCase] Room " ++ roomName ++ " does not exist for local broadcast."))]
    | some room =>
      Step.RoomRLock roomName ::
        (((room.Clients.map (fun e => BroadcastToLocalRoom.send writeErr message e.2)).flatten).map
            Step.Call ++
          [Step.RoomRUnlock roomName])

/-! ## Example states -/

/-- A client with a live connection, for the examples. -/
def exampleClient (id : String) (conn : Nat) : Client :=
  { ID := id, Conn := some conn, ClientID := "", Email := "", Name := "", Status := 0,
    SenderID := id }

/-- The registry after `x` joined rooms `A`, `B`, `C` and `y` joined room `A`. -/
def exampleRegistry : RoomUseCase :=
  (run [Op.JoinRoom (exampleClient "x" 1) "A", Op.JoinRoom (exampleClient "x" 1) "B",
    Op.JoinRoom (exampleClient "x" 1) "C", Op.JoinRoom (exampleClient "y" 2) "A"]).1

/-- Read results for the examples: four timeouts, a frame, then five timeouts. -/
def exampleReads : List ReadResult :=
  [ReadResult.timeout, ReadResult.timeout, ReadResult.timeout, ReadResult.timeout,
    ReadResult.data "x", ReadResult.timeout, ReadResult.timeout, ReadResult.timeout,
    ReadResult.timeout, ReadResult.timeout, ReadResult.data "y"]

/-! ## Lemmas on maps -/

theorem mapGet_isSome_iff {β : Type} (m : List (String × β)) (k : String) :
    (mapGet m k).isSome = true ↔ k ∈ mapKeys m := by
  induction m with
  | nil => simp [mapGet, mapKeys]
  | cons e rest ih =>
    obtain ⟨k1, v⟩ := e
    by_cases h : k1 = k
    · simp [mapGet, mapKeys, h]
    · have h2 : ¬ k = k1 := fun e => h e.symm
      simp only [mapKeys] at ih
      simp [mapGet, mapKeys, h, h2, ih]

theorem mapGet_eq_none_iff {β : Type} (m : List (String × β)) (k : String) :
    mapGet m k = none ↔ k ∉ mapKeys m := by
  rw [← mapGet_isSome_iff]
  cases mapGet m k <;> simp

theorem mapGet_mem {β : Type} (m : List (String × β)) (k : String) (v : β)
    (h : mapGet m k = some v) : (k, v) ∈ m := by
  induction m with
  | nil => simp [mapGet] at h
  | cons e rest ih =>
    obtain ⟨k1, v1⟩ := e
    by_cases hk : k1 = k
    · simp [mapGet, hk] at h
      simp [hk, h]
    · simp [mapGet, hk] at h
      exact List.mem_cons_of_mem _ (ih h)

theorem mapGet_of_mem {β : Type} (m : List (String × β)) (k : String) (v : β)
    (hnd : (mapKeys m).Nodup) (h : (k, v) ∈ m) : mapGet m k = some v := by
  induction m with
  | nil => simp at h
  | cons e rest ih =>
    obtain ⟨k1, v1⟩ := e
    simp only [mapKeys, List.map_cons, List.nodup_cons] at hnd
    rcases List.mem_cons.mp h with h1 | h1
    · cases h1
      simp [mapGet]
    · have hk : k1 ≠ k := by
        intro e
        subst e
        exact hnd.1 (List.mem_map_of_mem Prod.fst h1)
      simp only [mapGet, hk, if_false]
      exact ih hnd.2 h1

theorem mapGet_mapSet_self {β : Type} (m : List (String × β)) (k : String) (v : β) :
    mapGet (mapSet m k v) k = some v := by
  induction m with
  | nil => simp [mapSet, mapGet]
  | cons e rest ih =>
    obtain ⟨k1, v1⟩ := e
    by_cases hk : k1 = k
    · simp [mapSet, mapGet, hk]
    · simp [mapSet, mapGet, hk, ih]

theorem mapGet_mapSet_ne {β : Type} (m : List (String × β)) (k k2 : String) (v : β)
    (h : k2 ≠ k) : mapGet (mapSet m k v) k2 = mapGet m k2 := by
  induction m with
  | nil =>
    have h2 : ¬ k = k2 := fun e => h e.symm
    simp [mapSet, mapGet, h2]
  | cons e rest ih =>
    obtain ⟨k1, v1⟩ := e
    by_cases hk : k1 = k
    · have h3 : ¬ k = k2 := fun e => h e.symm
      simp [mapSet, mapGet, hk, h3]
    · by_cases hk2 : k1 = k2
      · subst hk2
        simp [mapSet, mapGet, hk]
      · simp [mapSet, mapGet, hk, hk2, ih]

theorem mapGet_mapDelete_self {β : Type} (m : List (String × β)) (k : String) :
    mapGet (mapDelete m k) k = none := by
  induction m with
  | nil => simp [mapDelete, mapGet]
  | cons e rest ih =>
    obtain ⟨k1, v1⟩ := e
    by_cases hk : k1 = k
    · simp [mapDelete, hk, ih]
    · simp [mapDelete, mapGet, hk, ih]

theorem mapGet_mapDelete_ne {β : Type} (m : List (String × β)) (k k2 : String)
    (h : k2 ≠ k) : mapGet (mapDelete m k) k2 = mapGet m k2 := by
  induction m with
  | nil => simp [mapDelete, mapGet]
  | cons e rest ih =>
    obtain ⟨k1, v1⟩ := e
    by_cases hk : k1 = k
    · have h3 : ¬ k = k2 := fun e => h e.symm
      simp [mapDelete, mapGet, hk, h3, ih]
    · by_cases hk2 : k1 = k2
      · subst hk2
        simp [mapDelete, mapGet, hk]
      · simp [mapDelete, mapGet, hk, hk2, ih]

theorem mem_mapSet {β : Type} (m : List (String × β)) (k : String) (v : β)
    (e : String × β) (h : e ∈ mapSet m k v) : e = (k, v) ∨ e ∈ m := by
  induction m with
  | nil => simp [mapSet] at h; exact Or.inl h
  | cons e1 rest ih =>
    obtain ⟨k1, v1⟩ := e1
    by_cases hk : k1 = k
    · simp [mapSet, hk] at h
      rcases h with h | h
      · exact Or.inl h
      · exact Or.inr (List.mem_cons_of_mem _ h)
    · simp [mapSet, hk] at h
      rcases h with h | h
      · right; subst h; simp
      · rcases ih h with h2 | h2
        · exact Or.inl h2
        · exact Or.inr (List.mem_cons_of_mem _ h2)

theorem mem_mapDelete {β : Type} (m : List (String × β)) (k : String)
    (e : String × β) : e ∈ mapDelete m k ↔ e ∈ m ∧ e.1 ≠ k := by
  induction m with
  | nil => simp [mapDelete]
  | cons e1 rest ih =>
    obtain ⟨k1, v1⟩ := e1
    by_cases hk : k1 = k
    · subst hk
      simp only [mapDelete, if_true, ih, List.mem_cons]
      constructor
      · rintro ⟨h1, h2⟩
        exact ⟨Or.inr h1, h2⟩
      · rintro ⟨h1 | h1, h2⟩
        · subst h1
          exact absurd rfl h2
        · exact ⟨h1, h2⟩
    · simp only [mapDelete, hk, if_false, List.mem_cons, ih]
      constructor
      · rintro (h1 | ⟨h1, h2⟩)
        · subst h1
          exact ⟨Or.inl rfl, hk⟩
        · exact ⟨Or.inr h1, h2⟩
      · rintro ⟨h1 | h1, h2⟩
        · exact Or.inl h1
        · exact Or.inr ⟨h1, h2⟩

theorem mapKeys_mapSet_mem {β : Type} (m : List (String × β)) (k k2 : String) (v : β) :
    k2 ∈ mapKeys (mapSet m k v) ↔ k2 = k ∨ k2 ∈ mapKeys m := by
  rw [← mapGet_isSome_iff, ← mapGet_isSome_iff]
  by_cases h : k2 = k
  · subst h
    simp [mapGet_mapSet_self]
  · simp [mapGet_mapSet_ne m k k2 v h, h]

theorem mapKeys_mapDelete_mem {β : Type} (m : List (String × β)) (k k2 : String) :
    k2 ∈ mapKeys (mapDelete m k) ↔ k2 ≠ k ∧ k2 ∈ mapKeys m := by
  rw [← mapGet_isSome_iff, ← mapGet_isSome_iff]
  by_cases h : k2 = k
  · subst h
    simp [mapGet_mapDelete_self]
  · simp [mapGet_mapDelete_ne m k k2 h, h]

theorem mapKeys_mapSet_nodup {β : Type} (m : List (String × β)) (k : String) (v : β)
    (h : (mapKeys m).Nodup) : (mapKeys (mapSet m k v)).Nodup := by
  induction m with
  | nil => simp [mapSet, mapKeys]
  | cons e1 rest ih =>
    obtain ⟨k1, v1⟩ := e1
    simp only [mapKeys, List.map_cons, List.nodup_cons] at h
    by_cases hk : k1 = k
    · simp only [mapSet, hk, if_true, mapKeys, List.map_cons, List.nodup_cons]
      rw [← hk]
      exact h
    · simp only [mapSet, hk, if_false, mapKeys, List.map_cons, List.nodup_cons]
      refine ⟨?_, ih h.2⟩
      intro hmem
      have := (mapKeys_mapSet_mem rest k k1 v).mp hmem
      rcases this with h1 | h1
      · exact hk h1
      · exact h.1 h1

theorem mapKeys_mapDelete_nodup {β : Type} (m : List (String × β)) (k : String)
    (h : (mapKeys m).Nodup) : (mapKeys (mapDelete m k)).Nodup := by
  induction m with
  | nil => simp [mapDelete, mapKeys]
  | cons e1 rest ih =>
    obtain ⟨k1, v1⟩ := e1
    simp only [mapKeys, List.map_cons, List.nodup_cons] at h
    by_cases hk : k1 = k
    · simp only [mapDelete, hk, if_true]
      exact ih h.2
    · simp only [mapDelete, hk, if_false, mapKeys, List.map_cons, List.nodup_cons]
      refine ⟨?_, ih h.2⟩
      intro hmem
      exact h.1 ((mapKeys_mapDelete_mem rest k k1).mp hmem).2

theorem mapSet_ne_nil {β : Type} (m : List (String × β)) (k : String) (v : β) :
    mapSet m k v ≠ [] := by
  cases m with
  | nil => simp [mapSet]
  | cons e1 rest =>
    obtain ⟨k1, v1⟩ := e1
    by_cases hk : k1 = k <;> simp [mapSet, hk]

theorem mapSet_mapSet {β : Type} (m : List (String × β)) (k : String) (v v2 : β) :
    mapSet (mapSet m k v) k v2 = mapSet m k v2 := by
  induction m with
  | nil => simp [mapSet]
  | cons e1 rest ih =>
    obtain ⟨k1, v1⟩ := e1
    by_cases hk : k1 = k
    · simp [mapSet, hk]
    · simp [mapSet, hk, ih]

theorem mapDelete_mapSet {β : Type} (m : List (String × β)) (k : String) (v : β) :
    mapDelete (mapSet m k v) k = mapDelete m k := by
  induction m with
  | nil => simp [mapSet, mapDelete]
  | cons e1 rest ih =>
    obtain ⟨k1, v1⟩ := e1
    by_cases hk : k1 = k
    · simp [mapSet, mapDelete, hk]
    · simp [mapSet, mapDelete, hk, ih]

/-! ## The shape of the registry after each operation -/

/-- The room that `JoinRoom` stores under `roomName`. -/
theorem JoinRoom_rooms (uc : RoomUseCase) (client : Client) (roomName : String) :
    (JoinRoom uc client roomName).1.rooms =
      mapSet uc.rooms roomName
        (match mapGet uc.rooms roomName with
          | some room =>
            { room with
              Clients := mapSet room.Clients client.ID { ID := client.ID, Conn := client } }
          | none =>
            { Name := roomName, Clients := [(client.ID, { ID := client.ID, Conn := client })] }) := by
  unfold JoinRoom
  cases h : mapGet uc.rooms roomName with
  | none => simp [mapSet_mapSet, mapSet]
  | some room => simp

theorem JoinRoom_effects (uc : RoomUseCase) (client : Client) (roomName : String) :
    (JoinRoom uc client roomName).2 =
      (match mapGet uc.rooms roomName with
        | some _ => []
        | none => startPubSubListener roomName) ++
      [ Effect.Log ("[RoomUseCase] Client " ++ client.ID ++ " joined room " ++ roomName),
        Effect.Publish roomName (roomName ++ "|" ++ client.ID ++ " joined the room") ] := by
  unfold JoinRoom
  cases h : mapGet uc.rooms roomName <;> simp

/-- The registry after `LeaveRoom` on a room that exists. -/
theorem LeaveRoom_rooms (uc : RoomUseCase) (clientID roomName : String) (room : Room)
    (h : mapGet uc.rooms roomName = some room) :
    (LeaveRoom uc clientID roomName).1.rooms =
      if (mapDelete room.Clients clientID).length = 0 then mapDelete uc.rooms roomName
      else mapSet uc.rooms roomName { room with Clients := mapDelete room.Clients clientID } := by
  unfold LeaveRoom
  simp only [h]
  by_cases he : (mapDelete room.Clients clientID).length = 0
  · simp [he, mapDelete_mapSet]
  · simp [he]

theorem LeaveRoom_effects (uc : RoomUseCase) (clientID roomName : String) (room : Room)
    (h : mapGet uc.rooms roomName = some room) :
    (LeaveRoom uc clientID roomName).2 =
      (if (mapDelete room.Clients clientID).length = 0 then [Effect.Unsubscribe roomName]
        else []) ++
      [ Effect.Log ("[RoomUseCase] Client " ++ clientID ++ " left room " ++ roomName),
        Effect.Publish roomName (roomName ++ "|" ++ clientID ++ " left the room") ] := by
  unfold LeaveRoom
  simp only [h]
  by_cases he : (mapDelete room.Clients clientID).length = 0
  · simp [he]
  · simp [he]

theorem LeaveRoom_absent (uc : RoomUseCase) (clientID roomName : String)
    (h : mapGet uc.rooms roomName = none) :
    LeaveRoom uc clientID roomName =
      (uc, [Effect.Log ("[RoomUseCase] Room " ++ roomName ++ " does not exist")]) := by
  unfold LeaveRoom
  simp [h]

/-- Every entry of the registry after the loop of `RemoveClient` is an entry of the registry
before it that did not hold the client, or such an entry with the client deleted and at least
one member left. -/
theorem RemoveClient_range_mem (clientID : String) (rooms : List (String × Room))
    (e : String × Room) (h : e ∈ (RemoveClient.range clientID rooms).1) :
    (e ∈ rooms ∧ mapGet e.2.Clients clientID = none) ∨
      ∃ room, (e.1, room) ∈ rooms ∧ mapGet room.Clients clientID ≠ none ∧
        e.2 = { room with Clients := mapDelete room.Clients clientID } ∧
        (mapDelete room.Clients clientID).length ≠ 0 := by
  induction rooms with
  | nil => simp [RemoveClient.range] at h
  | cons e1 rest ih =>
    obtain ⟨k1, room1⟩ := e1
    have lift : ((e ∈ rest ∧ mapGet e.2.Clients clientID = none) ∨
        ∃ room, (e.1, room) ∈ rest ∧ mapGet room.Clients clientID ≠ none ∧
          e.2 = { room with Clients := mapDelete room.Clients clientID } ∧
          (mapDelete room.Clients clientID).length ≠ 0) →
        ((e ∈ (k1, room1) :: rest ∧ mapGet e.2.Clients clientID = none) ∨
        ∃ room, (e.1, room) ∈ (k1, room1) :: rest ∧ mapGet room.Clients clientID ≠ none ∧
          e.2 = { room with Clients := mapDelete room.Clients clientID } ∧
          (mapDelete room.Clients clientID).length ≠ 0) := by
      rintro (⟨h1, h2⟩ | ⟨room, h1, h2⟩)
      · exact Or.inl ⟨List.mem_cons_of_mem _ h1, h2⟩
      · exact Or.inr ⟨room, List.mem_cons_of_mem _ h1, h2⟩
    unfold RemoveClient.range at h
    cases hg : mapGet room1.Clients clientID with
    | none =>
      simp only [hg, List.mem_cons] at h
      rcases h with h | h
      · subst h
        exact Or.inl ⟨List.mem_cons_self _ _, hg⟩
      · exact lift (ih h)
    | some cc =>
      simp only [hg] at h
      by_cases he : (mapDelete room1.Clients clientID).length = 0
      · simp only [he, beq_self_eq_true, if_true] at h
        exact lift (ih h)
      · simp only [beq_iff_eq, he, if_false, List.mem_cons] at h
        rcases h with h | h
        · subst h
          right
          exact ⟨room1, List.mem_cons_self _ _, by simp [hg], rfl, he⟩
        · exact lift (ih h)

/-- Every room in the registry has at least one member: kept by `JoinRoom`. -/
theorem JoinRoom_nonempty (uc : RoomUseCase) (client : Client) (roomName : String)
    (h : ∀ e ∈ uc.rooms, e.2.Clients ≠ []) :
    ∀ e ∈ (JoinRoom uc client roomName).1.rooms, e.2.Clients ≠ [] := by
  intro e he
  rw [JoinRoom_rooms] at he
  rcases mem_mapSet _ _ _ _ he with h1 | h1
  · subst h1
    cases mapGet uc.rooms roomName with
    | none => simp
    | some room => exact mapSet_ne_nil _ _ _
  · exact h e h1

/-- Every room in the registry has at least one member: kept by `LeaveRoom`. -/
theorem LeaveRoom_nonempty (uc : RoomUseCase) (clientID roomName : String)
    (h : ∀ e ∈ uc.rooms, e.2.Clients ≠ []) :
    ∀ e ∈ (LeaveRoom uc clientID roomName).1.rooms, e.2.Clients ≠ [] := by
  intro e he
  cases hg : mapGet uc.rooms roomName with
  | none =>
    rw [LeaveRoom_absent uc clientID roomName hg] at he
    exact h e he
  | some room =>
    rw [LeaveRoom_rooms uc clientID roomName room hg] at he
    by_cases hl : (mapDelete room.Clients clientID).length = 0
    · simp only [hl, if_true] at he
      exact h e ((mem_mapDelete _ _ _).mp he).1
    · simp only [hl, if_false] at he
      rcases mem_mapSet _ _ _ _ he with h1 | h1
      · subst h1
        intro hnil
        apply hl
        simp only at hnil
        simp [hnil]
      · exact h e h1

/-- Every room in the registry has at least one member: kept by `RemoveClient`. -/
theorem RemoveClient_nonempty (uc : RoomUseCase) (clientID : String)
    (h : ∀ e ∈ uc.rooms, e.2.Clients ≠ []) :
    ∀ e ∈ (RemoveClient uc clientID).1.rooms, e.2.Clients ≠ [] := by
  intro e he
  rcases RemoveClient_range_mem clientID uc.rooms e he with h1 | ⟨room, _, _, h3, h4⟩
  · exact h e h1.1
  · intro hnil
    apply h4
    rw [h3] at hnil
    simp only at hnil
    simp [hnil]

/-- A property of the registry kept by every operation holds after every sequence. -/
theorem exec_preserves (P : RoomUseCase → Prop)
    (hop : ∀ uc op, P uc → P (Op.apply uc op).1) (ops : List Op) :
    ∀ uc, P uc → P (exec uc ops).1 := by
  induction ops with
  | nil => intro uc h; exact h
  | cons op rest ih =>
    intro uc h
    exact ih _ (hop uc op h)

theorem run_nonempty (ops : List Op) : ∀ e ∈ (run ops).1.rooms, e.2.Clients ≠ [] := by
  apply exec_preserves (fun uc => ∀ e ∈ uc.rooms, e.2.Clients ≠ [])
  · intro uc op h
    cases op with
    | JoinRoom client roomName => exact JoinRoom_nonempty uc client roomName h
    | LeaveRoom clientID roomName => exact LeaveRoom_nonempty uc clientID roomName h
    | RemoveClient clientID => exact RemoveClient_nonempty uc clientID h
  · intro e he
    simp [NewRoomUseCase] at he

/-! ## C1: a room is in the registry exactly when it has members -/

/-- C1. Starting from an empty room manager, after every finite sequence of `JoinRoom`,
`LeaveRoom` and `RemoveClient` calls executed one at a time, a room name is a key of the
registry if and only if the number of members of that room is positive; no room with zero
members is left in the registry. -/
theorem registry_key_iff_has_member (ops : List Op) (r : String) :
    (r ∈ (run ops).1.roomNames ↔ 0 < (run ops).1.memberCount r) ∧
      ∀ e ∈ (run ops).1.rooms, e.2.Clients.length ≠ 0 := by
  have hinv := run_nonempty ops
  refine ⟨?_, ?_⟩
  · unfold RoomUseCase.roomNames RoomUseCase.memberCount
    rw [← mapGet_isSome_iff]
    cases hg : mapGet (run ops).1.rooms r with
    | none => simp
    | some room =>
      have hne := hinv _ (mapGet_mem _ _ _ hg)
      simp only [Option.isSome_some, true_iff]
      exact List.length_pos.mpr hne
  · intro e he hlen
    exact hinv e he (List.length_eq_zero.mp hlen)

/-! ## The room names stay distinct -/

theorem RemoveClient_range_keys_sublist (clientID : String) (rooms : List (String × Room)) :
    (mapKeys (RemoveClient.range clientID rooms).1).Sublist (mapKeys rooms) := by
  induction rooms with
  | nil => simp [RemoveClient.range, mapKeys]
  | cons e1 rest ih =>
    obtain ⟨k1, room1⟩ := e1
    unfold RemoveClient.range
    simp only [mapKeys] at ih
    cases hg : mapGet room1.Clients clientID with
    | none => simpa [mapKeys] using ih
    | some cc =>
      by_cases he : (mapDelete room1.Clients clientID).length = 0
      · simp only [he, beq_self_eq_true, if_true, mapKeys, List.map_cons]
        exact List.Sublist.cons _ ih
      · simp only [beq_iff_eq, he, if_false, mapKeys, List.map_cons]
        exact List.Sublist.cons₂ _ ih

theorem Op_apply_nodup (uc : RoomUseCase) (op : Op) (h : (mapKeys uc.rooms).Nodup) :
    (mapKeys (Op.apply uc op).1.rooms).Nodup := by
  cases op with
  | JoinRoom client roomName =>
    simp only [Op.apply]
    rw [JoinRoom_rooms]
    exact mapKeys_mapSet_nodup _ _ _ h
  | LeaveRoom clientID roomName =>
    simp only [Op.apply]
    cases hg : mapGet uc.rooms roomName with
    | none =>
      rw [LeaveRoom_absent uc clientID roomName hg]
      exact h
    | some room =>
      rw [LeaveRoom_rooms uc clientID roomName room hg]
      split
      · exact mapKeys_mapDelete_nodup _ _ h
      · exact mapKeys_mapSet_nodup _ _ _ h
  | RemoveClient clientID =>
    simp only [Op.apply, RemoveClient]
    exact List.Nodup.sublist (RemoveClient_range_keys_sublist clientID uc.rooms) h

/-! ## Subscriptions started and stopped by each operation -/

theorem JoinRoom_balance (uc : RoomUseCase) (client : Client) (roomName r : String) :
    subscribeCount (JoinRoom uc client roomName).2 r +
        (if r ∈ mapKeys uc.rooms then 1 else 0) =
      unsubscribeCount (JoinRoom uc client roomName).2 r +
        (if r ∈ mapKeys (JoinRoom uc client roomName).1.rooms then 1 else 0) := by
  rw [JoinRoom_rooms, JoinRoom_effects]
  simp only [mapKeys_mapSet_mem, subscribeCount, unsubscribeCount, startPubSubListener]
  cases hg : mapGet uc.rooms roomName with
  | none =>
    have hk := (mapGet_eq_none_iff _ _).mp hg
    by_cases hr : r = roomName
    · subst hr
      simp [hk]
    · have hr2 : ¬ roomName = r := fun e => hr e.symm
      simp [hr, hr2]
  | some room =>
    have hk : roomName ∈ mapKeys uc.rooms := (mapGet_isSome_iff _ _).mp (by simp [hg])
    by_cases hr : r = roomName
    · subst hr
      simp [hk]
    · simp [hr]

theorem LeaveRoom_balance (uc : RoomUseCase) (clientID roomName r : String) :
    subscribeCount (LeaveRoom uc clientID roomName).2 r +
        (if r ∈ mapKeys uc.rooms then 1 else 0) =
      unsubscribeCount (LeaveRoom uc clientID roomName).2 r +
        (if r ∈ mapKeys (LeaveRoom uc clientID roomName).1.rooms then 1 else 0) := by
  cases hg : mapGet uc.rooms roomName with
  | none =>
    rw [LeaveRoom_absent uc clientID roomName hg]
    simp [subscribeCount, unsubscribeCount]
  | some room =>
    have hk : roomName ∈ mapKeys uc.rooms := (mapGet_isSome_iff _ _).mp (by simp [hg])
    rw [LeaveRoom_rooms uc clientID roomName room hg,
      LeaveRoom_effects uc clientID roomName room hg]
    simp only [subscribeCount, unsubscribeCount]
    by_cases he : (mapDelete room.Clients clientID).length = 0
    · simp only [he, if_true, mapKeys_mapDelete_mem]
      by_cases hr : r = roomName
      · subst hr
        simp [hk]
      · have hr2 : ¬ roomName = r := fun e => hr e.symm
        simp [hr, hr2]
    · simp only [he, if_false, mapKeys_mapSet_mem]
      by_cases hr : r = roomName
      · subst hr
        simp [hk]
      · simp [hr]

theorem RemoveClient_range_balance (clientID r : String) (rooms : List (String × Room))
    (h : (mapKeys rooms).Nodup) :
    subscribeCount (RemoveClient.range clientID rooms).2 r = 0 ∧
      (if r ∈ mapKeys rooms then 1 else 0) =
        unsubscribeCount (RemoveClient.range clientID rooms).2 r +
          (if r ∈ mapKeys (RemoveClient.range clientID rooms).1 then 1 else 0) := by
  induction rooms with
  | nil => simp [RemoveClient.range, mapKeys, subscribeCount, unsubscribeCount]
  | cons e1 rest ih =>
    obtain ⟨k1, room1⟩ := e1
    simp only [mapKeys, List.map_cons, List.nodup_cons] at h
    have ih2 := ih h.2
    have hsub := RemoveClient_range_keys_sublist clientID rest
    have hk1 : k1 ∉ mapKeys (RemoveClient.range clientID rest).1 :=
      fun hm => h.1 (hsub.subset hm)
    have hk0 : k1 ∉ mapKeys rest := h.1
    have hzero : r = k1 → unsubscribeCount (RemoveClient.range clientID rest).2 r = 0 := by
      intro hr
      subst hr
      have := ih2.2
      simp only [hk0, hk1, if_false] at this
      omega
    unfold RemoveClient.range
    simp only [subscribeCount, unsubscribeCount, mapKeys] at ih2 hzero hk0 hk1 ⊢
    obtain ⟨ihs, ihu⟩ := ih2
    cases hg : mapGet room1.Clients clientID with
    | none =>
      simp only [List.map_cons, List.mem_cons]
      refine ⟨ihs, ?_⟩
      by_cases hr : r = k1
      · have hz := hzero hr
        subst hr
        simp only [true_or, if_true, hz]
      · simp only [hr, false_or]
        exact ihu
    | some cc =>
      by_cases he : (mapDelete room1.Clients clientID).length = 0
      · simp only [he, beq_self_eq_true, if_true, List.map_cons, List.mem_cons]
        by_cases hr : r = k1
        · have hz := hzero hr
          subst hr
          simp [ihs, hz, hk1]
        · have hr2 : ¬ k1 = r := fun e => hr e.symm
          simp only [hr, false_or]
          simp [List.count_cons, hr2, ihs]
          exact ihu
      · simp only [beq_iff_eq, he, if_false, List.map_cons, List.mem_cons]
        by_cases hr : r = k1
        · have hz := hzero hr
          subst hr
          simp [ihs, hz]
        · simp only [hr, false_or]
          simp [List.count_cons, ihs]
          exact ihu

theorem Op_apply_balance (uc : RoomUseCase) (op : Op) (r : String)
    (h : (mapKeys uc.rooms).Nodup) :
    subscribeCount (Op.apply uc op).2 r + (if r ∈ mapKeys uc.rooms then 1 else 0) =
      unsubscribeCount (Op.apply uc op).2 r +
        (if r ∈ mapKeys (Op.apply uc op).1.rooms then 1 else 0) := by
  cases op with
  | JoinRoom client roomName => exact JoinRoom_balance uc client roomName r
  | LeaveRoom clientID roomName => exact LeaveRoom_balance uc clientID roomName r
  | RemoveClient clientID =>
    have := RemoveClient_range_balance clientID r uc.rooms h
    simp only [Op.apply, RemoveClient]
    omega

theorem exec_balance (ops : List Op) (r : String) :
    ∀ uc : RoomUseCase, (mapKeys uc.rooms).Nodup →
      subscribeCount (exec uc ops).2 r + (if r ∈ mapKeys uc.rooms then 1 else 0) =
        unsubscribeCount (exec uc ops).2 r +
          (if r ∈ mapKeys (exec uc ops).1.rooms then 1 else 0) := by
  induction ops with
  | nil => intro uc _; simp [exec, subscribeCount, unsubscribeCount]
  | cons op rest ih =>
    intro uc h
    have h1 := Op_apply_balance uc op r h
    have h2 := ih (Op.apply uc op).1 (Op_apply_nodup uc op h)
    simp only [exec, subscribeCount, unsubscribeCount, List.count_append] at h1 h2 ⊢
    omega

/-! ## C2: one subscription per room in the registry, none otherwise -/

/-- C2. Starting from an empty room manager, after every finite sequence of `JoinRoom`,
`LeaveRoom` and `RemoveClient` calls, for every room name `r` the number of `Subscribe`
calls issued for `r` minus the number of `Unsubscribe` calls issued for `r` is 1 when `r` is
in the registry and 0 when it is not; equivalently it is 1 when `r` has members and 0 when
it has none. -/
theorem subscription_balance (ops : List Op) (r : String) :
    ((subscribeCount (run ops).2 r : Int) - (unsubscribeCount (run ops).2 r : Int) =
        if r ∈ (run ops).1.roomNames then 1 else 0) ∧
      ((subscribeCount (run ops).2 r : Int) - (unsubscribeCount (run ops).2 r : Int) =
        if 0 < (run ops).1.memberCount r then 1 else 0) := by
  have hb := exec_balance ops r NewRoomUseCase (by simp [NewRoomUseCase, mapKeys])
  have hinv := run_nonempty ops
  have hiff : r ∈ (run ops).1.roomNames ↔ 0 < (run ops).1.memberCount r := by
    unfold RoomUseCase.roomNames RoomUseCase.memberCount
    rw [← mapGet_isSome_iff]
    cases hg : mapGet (run ops).1.rooms r with
    | none => simp
    | some room =>
      simp only [Option.isSome_some, true_iff]
      exact List.length_pos.mpr (hinv _ (mapGet_mem _ _ _ hg))
  have hnew : r ∉ mapKeys NewRoomUseCase.rooms := by simp [NewRoomUseCase, mapKeys]
  simp only [hnew, if_false, Nat.add_zero] at hb
  have hfirst : (subscribeCount (run ops).2 r : Int) - (unsubscribeCount (run ops).2 r : Int) =
      if r ∈ (run ops).1.roomNames then 1 else 0 := by
    unfold run RoomUseCase.roomNames
    rw [hb]
    split <;> simp
  refine ⟨hfirst, ?_⟩
  rw [hfirst]
  by_cases hr : r ∈ (run ops).1.roomNames
  · simp [hr, hiff.mp hr]
  · have : ¬ 0 < (run ops).1.memberCount r := fun h => hr (hiff.mpr h)
    simp [hr, this]

/-! ## The payload split of the subscription handler -/

theorem cutAt_none (sep : Char) (s : List Char) (h : sep ∉ s) : cutAt sep s = none := by
  induction s with
  | nil => rfl
  | cons c rest ih =>
    simp only [List.mem_cons, not_or] at h
    have hc : ¬ c = sep := fun e => h.1 e.symm
    simp [cutAt, hc, ih h.2]

theorem cutAt_first (sep : Char) (pre post : List Char) (h : sep ∉ pre) :
    cutAt sep (pre ++ sep :: post) = some (pre, post) := by
  induction pre with
  | nil => simp [cutAt]
  | cons c rest ih =>
    simp only [List.mem_cons, not_or] at h
    have hc : ¬ c = sep := fun e => h.1 e.symm
    simp [cutAt, hc, ih h.2]

theorem cutAt_some_of_mem (sep : Char) (a b : List Char) :
    ∃ p, cutAt sep (a ++ sep :: b) = some p ∧ b.length ≤ p.2.length := by
  induction a with
  | nil => exact ⟨([], b), by simp [cutAt], Nat.le_refl _⟩
  | cons c rest ih =>
    by_cases hc : c = sep
    · refine ⟨([], rest ++ sep :: b), by simp [cutAt, hc], ?_⟩
      simp
      omega
    · obtain ⟨p, hp, hlen⟩ := ih
      exact ⟨(c :: p.1, p.2), by simp [cutAt, hc, hp], hlen⟩

/-- The handler passes on the part after the first separator, when there is one. -/
theorem content_eq_cutAt (payload : String) :
    startPubSubListener.content payload =
      match cutAt '|' payload.data with
      | some p => some (String.mk p.2)
      | none => none := by
  unfold startPubSubListener.content SplitN
  cases h : cutAt '|' payload.data with
  | none => simp [SplitN.loop, h]
  | some p => simp [SplitN.loop, h]

/-! ## C3: what a broadcast content looks like after the relay round trip -/

theorem jsonEscapeChar_length (c : Char) : 1 ≤ (jsonEscapeChar c).length := by
  unfold jsonEscapeChar
  split_ifs <;> simp

theorem jsonEscape_length (l : List Char) :
    l.length ≤ ((l.map jsonEscapeChar).flatten).length := by
  induction l with
  | nil => simp
  | cons c rest ih =>
    have := jsonEscapeChar_length c
    simp only [List.map_cons, List.flatten_cons, List.length_append, List.length_cons]
    omega

theorem jsonEscapeChar_bar : jsonEscapeChar '|' = ['|'] := by decide

/-- For every room name and content, the text that reaches `BroadcastToLocalRoom` after the
round trip through `Publish` and the handler is longer than the content that was
broadcast: the handler splits the JSON text of the payload without decoding it. -/
theorem relayedContent_longer (roomName content : String) :
    ∃ t, relayedContent roomName content = some t ∧ content.length < t.length := by
  unfold relayedContent pubSubRepository.Publish
  rw [content_eq_cutAt]
  have hdata : (jsonMarshal (roomName ++ "|" ++ content)).data =
      (dquote :: (roomName.data.map jsonEscapeChar).flatten) ++
        '|' :: ((content.data.map jsonEscapeChar).flatten ++ [dquote]) := by
    have hbar : ("|" : String).data = ['|'] := rfl
    simp [jsonMarshal, String.data_append, hbar, jsonEscapeChar_bar]
  obtain ⟨p, hp, hlen⟩ := cutAt_some_of_mem '|'
    (dquote :: (roomName.data.map jsonEscapeChar).flatten)
    ((content.data.map jsonEscapeChar).flatten ++ [dquote])
  rw [hdata, hp]
  refine ⟨String.mk p.2, rfl, ?_⟩
  have h1 := jsonEscape_length content.data
  simp only [List.length_append, List.length_singleton] at hlen
  show content.data.length < p.2.length
  omega

/-- C3, evaluated on the code. `BroadcastMessage("general", "hi")` publishes the message
`general|hi`; `Publish` hands its JSON text, quotes included, to the relay; the handler of
room `general` splits that text at the first `|` and passes `hi` followed by a double quote
to `BroadcastToLocalRoom`, not the content `hi`. -/
theorem relayedContent_general_hi :
    BroadcastMessage "general" "hi" none = [Effect.Publish "general" "general|hi"] ∧
      pubSubRepository.Publish "general" "general|hi" =
        ("room:general", String.mk ([dquote] ++ "general|hi".data ++ [dquote])) ∧
      relayedContent "general" "hi" = some (String.mk ['h', 'i', dquote]) ∧
      relayedContent "general" "hi" ≠ some "hi" := by
  decide

/-! ## C7: the handler drops payloads without separator and keeps the rest whole -/

/-- C7. A payload without `|` makes the handler log and return: nothing is passed to
`BroadcastToLocalRoom` and no effect but the log line occurs. A payload `pre|post` whose
first `|` is the one shown makes the handler call `BroadcastToLocalRoom` once, with `post`
whole, further `|` included. -/
theorem handler_splits_at_first_bar (uc : RoomUseCase) (writeErr : ClientConn → Option String)
    (roomName : String) :
    (∀ payload : String, '|' ∉ payload.data →
      startPubSubListener.content payload = none ∧
      startPubSubListener.handler uc writeErr roomName payload =
        [Effect.Log ("[RoomUseCase] Invalid broadcast for room " ++ roomName ++ ": " ++ payload)]) ∧
    (∀ pre post : String, '|' ∉ pre.data →
      startPubSubListener.content (pre ++ "|" ++ post) = some post ∧
      startPubSubListener.handler uc writeErr roomName (pre ++ "|" ++ post) =
        BroadcastToLocalRoom uc writeErr roomName post) := by
  constructor
  · intro payload h
    have hc : startPubSubListener.content payload = none := by
      rw [content_eq_cutAt, cutAt_none _ _ h]
    exact ⟨hc, by simp [startPubSubListener.handler, hc]⟩
  · intro pre post h
    have hdata : (pre ++ "|" ++ post).data = pre.data ++ '|' :: post.data := by
      have hbar : ("|" : String).data = ['|'] := rfl
      simp [String.data_append, hbar]
    have hc : startPubSubListener.content (pre ++ "|" ++ post) = some post := by
      rw [content_eq_cutAt, hdata, cutAt_first _ _ _ h]
    exact ⟨hc, by simp [startPubSubListener.handler, hc]⟩

/-- The witness of C7: the payloads of the specification and one whose content holds `|`. -/
theorem handler_splits_at_first_bar_witness :
    startPubSubListener.content "malformed" = none ∧
      startPubSubListener.content ("general" ++ "|" ++ "hello world") = some "hello world" ∧
      startPubSubListener.content ("a" ++ "|" ++ "b|c") = some "b|c" :=
  ⟨((handler_splits_at_first_bar NewRoomUseCase (fun _ => none) "general").1
      "malformed" (by decide)).1,
    ((handler_splits_at_first_bar NewRoomUseCase (fun _ => none) "general").2
      "general" "hello world" (by decide)).1,
    ((handler_splits_at_first_bar NewRoomUseCase (fun _ => none) "a").2
      "a" "b|c" (by decide)).1⟩

/-! ## C4: `RemoveClient` -/

/-- The registry after the loop of `RemoveClient`, room by room. -/
theorem RemoveClient_range_get (clientID r : String) (rooms : List (String × Room))
    (h : (mapKeys rooms).Nodup) :
    mapGet (RemoveClient.range clientID rooms).1 r =
      match mapGet rooms r with
      | none => none
      | some room =>
        match mapGet room.Clients clientID with
        | none => some room
        | some _ =>
          if (mapDelete room.Clients clientID).length = 0 then none
          else some { room with Clients := mapDelete room.Clients clientID } := by
  induction rooms with
  | nil => simp [RemoveClient.range, mapGet]
  | cons e1 rest ih =>
    obtain ⟨k1, room1⟩ := e1
    simp only [mapKeys, List.map_cons, List.nodup_cons] at h
    have ih2 := ih h.2
    have hsub := RemoveClient_range_keys_sublist clientID rest
    have hk1 : mapGet (RemoveClient.range clientID rest).1 k1 = none :=
      (mapGet_eq_none_iff _ _).mpr (fun hm => h.1 (hsub.subset hm))
    unfold RemoveClient.range
    by_cases hr : k1 = r
    · subst hr
      cases hg : mapGet room1.Clients clientID with
      | none => simp [mapGet, hg]
      | some cc =>
        by_cases he : (mapDelete room1.Clients clientID).length = 0
        · simp [mapGet, hg, he, hk1]
        · simp [mapGet, hg, he]
    · cases hg : mapGet room1.Clients clientID with
      | none => simp [mapGet, hr, ih2]
      | some cc =>
        by_cases he : (mapDelete room1.Clients clientID).length = 0
        · simp [mapGet, hr, he, ih2]
        · simp [mapGet, hr, he, ih2]

/-- When the client is in no room the loop of `RemoveClient` changes nothing and calls
nothing. -/
theorem RemoveClient_range_absent (clientID : String) (rooms : List (String × Room))
    (h : ∀ e ∈ rooms, mapGet e.2.Clients clientID = none) :
    RemoveClient.range clientID rooms = (rooms, []) := by
  induction rooms with
  | nil => rfl
  | cons e1 rest ih =>
    obtain ⟨k1, room1⟩ := e1
    have h1 : mapGet room1.Clients clientID = none := h (k1, room1) (List.mem_cons_self _ _)
    have h2 := ih (fun e he => h e (List.mem_cons_of_mem _ he))
    unfold RemoveClient.range
    simp [h1, h2]

/-- C4. For every registry and client id, after `RemoveClient(id)`: `id` is a member of no
room; every room whose only member was `id` is gone from the registry; every room `id` was
not a member of is unchanged (and no room appears); and when `id` belonged to no room the
registry is unchanged and no call at all is made, so no `Publish` and no `Unsubscribe`. -/
theorem RemoveClient_spec (uc : RoomUseCase) (clientID : String)
    (hmap : (mapKeys uc.rooms).Nodup) :
    (∀ r, (RemoveClient uc clientID).1.isMember clientID r = false) ∧
    (∀ r room, mapGet uc.rooms r = some room → mapGet room.Clients clientID ≠ none →
      (∀ k ∈ mapKeys room.Clients, k = clientID) →
      mapGet (RemoveClient uc clientID).1.rooms r = none) ∧
    (∀ r room, mapGet uc.rooms r = some room → mapGet room.Clients clientID = none →
      mapGet (RemoveClient uc clientID).1.rooms r = some room) ∧
    (∀ r, mapGet uc.rooms r = none → mapGet (RemoveClient uc clientID).1.rooms r = none) ∧
    ((∀ r, uc.isMember clientID r = false) → RemoveClient uc clientID = (uc, [])) := by
  refine ⟨?_, ?_, ?_, ?_, ?_⟩
  · intro r
    unfold RoomUseCase.isMember
    cases hg : mapGet (RemoveClient uc clientID).1.rooms r with
    | none => rfl
    | some room =>
      have hmem := mapGet_mem _ _ _ hg
      rcases RemoveClient_range_mem clientID uc.rooms _ hmem with h1 | ⟨room0, _, _, h3, _⟩
      · simp [h1.2]
      · simp only at h3
        simp [h3, mapGet_mapDelete_self]
  · intro r room hg hin honly
    simp only [RemoveClient]
    rw [RemoveClient_range_get clientID r uc.rooms hmap, hg]
    have hempty : mapDelete room.Clients clientID = [] := by
      cases hd : mapDelete room.Clients clientID with
      | nil => rfl
      | cons e rest =>
        have he : e ∈ mapDelete room.Clients clientID := by simp [hd]
        have := (mem_mapDelete _ _ _).mp he
        exact absurd (honly e.1 (List.mem_map_of_mem Prod.fst this.1)) this.2
    cases hc : mapGet room.Clients clientID with
    | none => exact absurd hc hin
    | some cc => simp [hempty, hc]
  · intro r room hg hout
    simp only [RemoveClient]
    rw [RemoveClient_range_get clientID r uc.rooms hmap, hg]
    simp [hout]
  · intro r hg
    simp only [RemoveClient]
    rw [RemoveClient_range_get clientID r uc.rooms hmap, hg]
  · intro hno
    have hall : ∀ e ∈ uc.rooms, mapGet e.2.Clients clientID = none := by
      intro e he
      have hg := mapGet_of_mem uc.rooms e.1 e.2 hmap he
      have := hno e.1
      simp only [RoomUseCase.isMember, hg] at this
      cases hc : mapGet e.2.Clients clientID with
      | none => rfl
      | some cc => simp [hc] at this
    simp only [RemoveClient, RemoveClient_range_absent clientID uc.rooms hall]

/-- The witness of C4: `x` joined `A`, `B`, `C`, and `y` joined `A`; removing `x` deletes
`B` and `C`, keeps `A` with `y`, and removing a stranger changes nothing. -/
theorem RemoveClient_spec_witness :
    (mapKeys exampleRegistry.rooms).Nodup ∧
      (RemoveClient exampleRegistry "x").1.isMember "x" "A" = false ∧
      mapGet (RemoveClient exampleRegistry "x").1.rooms "B" = none ∧
      (RemoveClient exampleRegistry "x").1.roomNames = ["A"] ∧
      RemoveClient exampleRegistry "z" = (exampleRegistry, []) :=
  ⟨by decide,
    (RemoveClient_spec exampleRegistry "x" (by decide)).1 "A",
    (RemoveClient_spec exampleRegistry "x" (by decide)).2.1 "B"
      { Name := "B", Clients := [("x", { ID := "x", Conn := exampleClient "x" 1 })] }
      (by decide) (by decide) (by decide),
    by decide,
    (RemoveClient_spec exampleRegistry "z" (by decide)).2.2.2.2 (by
      intro r
      unfold RoomUseCase.isMember
      cases hg : mapGet exampleRegistry.rooms r with
      | none => rfl
      | some room =>
        have hmem := mapGet_mem _ _ _ hg
        have hall : ∀ e ∈ exampleRegistry.rooms, mapGet e.2.Clients "z" = none := by decide
        simp [hall _ hmem])⟩

/-! ## C5: local fanout -/

theorem send_writes (writeErr : ClientConn → Option String) (message : String)
    (cc : ClientConn) :
    (BroadcastToLocalRoom.send writeErr message cc).filter Effect.isWrite =
      if cc.Conn.Conn.isSome then [Effect.WriteMessage cc message] else [] := by
  unfold BroadcastToLocalRoom.send
  cases hc : cc.Conn.Conn with
  | none => simp
  | some conn =>
    cases hw : writeErr cc with
    | none => simp [Effect.isWrite]
    | some err => simp [Effect.isWrite]

theorem fanout_writes (writeErr : ClientConn → Option String) (message : String)
    (clients : List (String × ClientConn)) :
    ((clients.map (fun e => BroadcastToLocalRoom.send writeErr message e.2)).flatten).filter
        Effect.isWrite =
      (clients.filter (fun e => e.2.Conn.Conn.isSome)).map
        (fun e => Effect.WriteMessage e.2 message) := by
  induction clients with
  | nil => simp
  | cons e rest ih =>
    simp only [List.map_cons, List.flatten_cons, List.filter_append, ih, send_writes]
    cases hc : e.2.Conn.Conn <;> simp [List.filter_cons, hc]

/-- C5. One call `BroadcastToLocalRoom(r, c)` on a room in the registry attempts the writes
given by the entries of the room that have a connection, one write of the text `c` per
entry and in the order of the entries, and no other write; the writes attempted are the same
whatever the results of the individual writes; when `r` is not in the registry no write is
attempted. -/
theorem BroadcastToLocalRoom_writes (uc : RoomUseCase) (writeErr : ClientConn → Option String)
    (r c : String) :
    (BroadcastToLocalRoom uc writeErr r c).filter Effect.isWrite =
        (match mapGet uc.rooms r with
          | none => []
          | some room =>
            (room.Clients.filter (fun e => e.2.Conn.Conn.isSome)).map
              (fun e => Effect.WriteMessage e.2 c)) ∧
      ∀ writeErr2 : ClientConn → Option String,
        (BroadcastToLocalRoom uc writeErr2 r c).filter Effect.isWrite =
          (BroadcastToLocalRoom uc writeErr r c).filter Effect.isWrite := by
  have key : ∀ w : ClientConn → Option String,
      (BroadcastToLocalRoom uc w r c).filter Effect.isWrite =
        (match mapGet uc.rooms r with
          | none => []
          | some room =>
            (room.Clients.filter (fun e => e.2.Conn.Conn.isSome)).map
              (fun e => Effect.WriteMessage e.2 c)) := by
    intro w
    unfold BroadcastToLocalRoom
    cases hg : mapGet uc.rooms r with
    | none => simp [Effect.isWrite]
    | some room => simpa using fanout_writes w c room.Clients
  exact ⟨key writeErr, fun w => by rw [key w, key writeErr]⟩

/-! ## C6: `LeaveRoom` on a room that exists -/

/-- C6. For every well-formed registry in which room `r` exists, after `LeaveRoom(id, r)`:
`id` is not a member of `r`; every other client is a member of `r` exactly when it was
before; when `r` became empty it is deleted from the registry and `Unsubscribe(r)` is issued,
otherwise `r` stays with its other entries and no `Unsubscribe` is issued; every other room
is unchanged; and a later `BroadcastToLocalRoom(r, c)` makes no write to the connection of
the client `id`. -/
theorem LeaveRoom_spec (uc : RoomUseCase) (clientID r : String) (room : Room)
    (hwf : uc.WF) (hroom : mapGet uc.rooms r = some room) :
    (LeaveRoom uc clientID r).1.isMember clientID r = false ∧
    (∀ k, k ≠ clientID →
      (LeaveRoom uc clientID r).1.isMember k r = uc.isMember k r) ∧
    ((mapDelete room.Clients clientID).length = 0 →
      mapGet (LeaveRoom uc clientID r).1.rooms r = none ∧
        (LeaveRoom uc clientID r).2.count (Effect.Unsubscribe r) = 1) ∧
    ((mapDelete room.Clients clientID).length ≠ 0 →
      mapGet (LeaveRoom uc clientID r).1.rooms r =
          some { room with Clients := mapDelete room.Clients clientID } ∧
        (LeaveRoom uc clientID r).2.count (Effect.Unsubscribe r) = 0) ∧
    (∀ r2, r2 ≠ r → mapGet (LeaveRoom uc clientID r).1.rooms r2 = mapGet uc.rooms r2) ∧
    (∀ (writeErr : ClientConn → Option String) (c : String) (cc : ClientConn) (d : String),
      Effect.WriteMessage cc d ∈ BroadcastToLocalRoom (LeaveRoom uc clientID r).1 writeErr r c →
        cc.Conn.ID ≠ clientID ∧ cc.ID ≠ clientID) := by
  have hrooms := LeaveRoom_rooms uc clientID r room hroom
  have hfx := LeaveRoom_effects uc clientID r room hroom
  have hget : mapGet (LeaveRoom uc clientID r).1.rooms r =
      if (mapDelete room.Clients clientID).length = 0 then none
      else some { room with Clients := mapDelete room.Clients clientID } := by
    rw [hrooms]
    split
    · exact mapGet_mapDelete_self _ _
    · exact mapGet_mapSet_self _ _ _
  refine ⟨?_, ?_, ?_, ?_, ?_, ?_⟩
  · unfold RoomUseCase.isMember
    rw [hget]
    by_cases he : (mapDelete room.Clients clientID).length = 0
    · simp [he]
    · simp [he, mapGet_mapDelete_self]
  · intro k hk
    unfold RoomUseCase.isMember
    rw [hget, hroom]
    by_cases he : (mapDelete room.Clients clientID).length = 0
    · simp only [he, if_true]
      have hnil : mapDelete room.Clients clientID = [] := List.length_eq_zero.mp he
      have h1 := mapGet_mapDelete_ne room.Clients clientID k hk
      rw [hnil] at h1
      simp only [mapGet] at h1
      simp [← h1]
    · simp only [he, if_false]
      rw [mapGet_mapDelete_ne room.Clients clientID k hk]
  · intro he
    refine ⟨by rw [hget]; simp [he], ?_⟩
    rw [hfx]
    simp [he, List.count_cons]
  · intro he
    refine ⟨by rw [hget]; simp [he], ?_⟩
    rw [hfx]
    simp [he, List.count_cons]
  · intro r2 hr2
    rw [hrooms]
    split
    · exact mapGet_mapDelete_ne _ _ _ hr2
    · exact mapGet_mapSet_ne _ _ _ _ hr2
  · intro writeErr c cc d hmem
    unfold BroadcastToLocalRoom at hmem
    rw [hget] at hmem
    by_cases he : (mapDelete room.Clients clientID).length = 0
    · simp [he] at hmem
    · simp only [he, if_false, List.mem_flatten, List.mem_map] at hmem
      obtain ⟨fx, ⟨e, hein, hfxe⟩, hw⟩ := hmem
      subst hfxe
      have hcc : cc = e.2 := by
        unfold BroadcastToLocalRoom.send at hw
        cases hconn : e.2.Conn.Conn with
        | none => simp [hconn] at hw
        | some conn =>
          cases hwe : writeErr e.2 with
          | none => simp [hconn, hwe] at hw; exact hw.1
          | some err => simp [hconn, hwe] at hw; exact hw.1
      have hdel := (mem_mapDelete _ _ _).mp hein
      have hentry := (hwf.2 (r, room) (mapGet_mem _ _ _ hroom)).2.2 e hdel.1
      subst hcc
      exact ⟨by rw [hentry.2]; exact hdel.2, by rw [hentry.1]; exact hdel.2⟩

/-- The witness of C6: `y` leaves room `A` of the example registry, `x` stays, and `x`
leaving room `B` empties and deletes it. -/
theorem LeaveRoom_spec_witness :
    exampleRegistry.WF ∧
      (LeaveRoom exampleRegistry "y" "A").1.isMember "y" "A" = false ∧
      (LeaveRoom exampleRegistry "y" "A").1.isMember "x" "A" = true ∧
      mapGet (LeaveRoom exampleRegistry "x" "B").1.rooms "B" = none ∧
      (LeaveRoom exampleRegistry "x" "B").2.count (Effect.Unsubscribe "B") = 1 :=
  ⟨by decide,
    (LeaveRoom_spec exampleRegistry "y" "A"
      { Name := "A", Clients := [("x", { ID := "x", Conn := exampleClient "x" 1 }),
          ("y", { ID := "y", Conn := exampleClient "y" 2 })] }
      (by decide) (by decide)).1,
    ((LeaveRoom_spec exampleRegistry "y" "A"
      { Name := "A", Clients := [("x", { ID := "x", Conn := exampleClient "x" 1 }),
          ("y", { ID := "y", Conn := exampleClient "y" 2 })] }
      (by decide) (by decide)).2.1 "x" (by decide)).trans (by decide),
    ((LeaveRoom_spec exampleRegistry "x" "B"
      { Name := "B", Clients := [("x", { ID := "x", Conn := exampleClient "x" 1 })] }
      (by decide) (by decide)).2.2.1 (by decide)).1,
    ((LeaveRoom_spec exampleRegistry "x" "B"
      { Name := "B", Clients := [("x", { ID := "x", Conn := exampleClient "x" 1 })] }
      (by decide) (by decide)).2.2.1 (by decide)).2⟩

/-! ## C9 and C10: dispatch of a decoded message -/

/-- C9. For every client and every message whose room identifier is empty, whatever its
action and content, `handleMessage` logs the error and returns: the registry is unchanged and
the only effect is that log line, so nothing is published, subscribed, written or
persisted. -/
theorem handleMessage_empty_room (uc : RoomUseCase) (client : Client) (msg : Message)
    (createErr publishErr : Option String) (h : msg.RoomID = "") :
    handleMessage uc client msg createErr publishErr =
        (uc, [Effect.Log ("Error: RoomID is empty in message from client " ++ client.ID)]) ∧
      (handleMessage uc client msg createErr publishErr).1 = uc ∧
      ∀ e ∈ (handleMessage uc client msg createErr publishErr).2, e.isLog = true := by
  have h1 : handleMessage uc client msg createErr publishErr =
      (uc, [Effect.Log ("Error: RoomID is empty in message from client " ++ client.ID)]) := by
    unfold handleMessage
    simp [h]
  refine ⟨h1, by rw [h1], ?_⟩
  rw [h1]
  intro e he
  simp only [List.mem_singleton] at he
  subst he
  rfl

/-- The witness of C9: a `join` with an empty room identifier on the example registry. -/
theorem handleMessage_empty_room_witness :
    (exampleMessage "" "join" "hi").RoomID = "" ∧
      (handleMessage exampleRegistry (exampleClient "z" 3) (exampleMessage "" "join" "hi")
        none none).1 = exampleRegistry :=
  ⟨rfl, (handleMessage_empty_room exampleRegistry (exampleClient "z" 3)
    (exampleMessage "" "join" "hi") none none rfl).2.1⟩

/-- C10. For every client and every message with a non-empty room identifier: the action
`join` does what `JoinRoom(client, room)` does, `leave` what `LeaveRoom(client.ID, room)`
does; `message` leaves the registry alone and, whatever the results of persistence and of
the publish, makes one `CreateMessage` of the message carrying the sender of the client and
then one publish of `room|content` on the room, everything else being log lines; every other
action, the empty one included, only logs that the action is unknown. -/
theorem handleMessage_dispatch (uc : RoomUseCase) (client : Client) (msg : Message)
    (createErr publishErr : Option String) (h : msg.RoomID ≠ "") :
    (msg.Action = "join" →
      handleMessage uc client msg createErr publishErr = JoinRoom uc client msg.RoomID) ∧
    (msg.Action = "leave" →
      handleMessage uc client msg createErr publishErr = LeaveRoom uc client.ID msg.RoomID) ∧
    (msg.Action = "message" →
      (handleMessage uc client msg createErr publishErr).1 = uc ∧
      (handleMessage uc client msg createErr publishErr).2.filter (fun e => !e.isLog) =
        [ Effect.CreateMessage { msg with SenderID := client.SenderID },
          Effect.Publish msg.RoomID (msg.RoomID ++ "|" ++ msg.Content) ]) ∧
    (msg.Action ≠ "join" → msg.Action ≠ "leave" → msg.Action ≠ "message" →
      handleMessage uc client msg createErr publishErr =
        (uc, [Effect.Log ("Unknown action: " ++ msg.Action)])) := by
  refine ⟨?_, ?_, ?_, ?_⟩
  · intro ha
    unfold handleMessage
    simp [h, ha]
  · intro ha
    unfold handleMessage
    simp [h, ha]
  · intro ha
    unfold handleMessage ProcessMessage messageServiceImpl.BroadcastMessage
    cases createErr <;> cases publishErr <;> simp [h, ha, Effect.isLog]
  · intro h1 h2 h3
    unfold handleMessage
    simp [h, h1, h2, h3]

/-- The witness of C10: a `message` for room `A` whose persistence fails is still
published. -/
theorem handleMessage_dispatch_witness :
    (exampleMessage "A" "message" "hi").RoomID ≠ "" ∧
      (handleMessage exampleRegistry (exampleClient "x" 1) (exampleMessage "A" "message" "hi")
        (some "db down") none).2.filter (fun e => !e.isLog) =
        [ Effect.CreateMessage
            { exampleMessage "A" "message" "hi" with SenderID := (exampleClient "x" 1).SenderID },
          Effect.Publish "A" ("A" ++ "|" ++ "hi") ] :=
  ⟨by decide, ((handleMessage_dispatch exampleRegistry (exampleClient "x" 1)
    (exampleMessage "A" "message" "hi") (some "db down") none (by decide)).2.2.1 rfl).2⟩

/-! ## C8: the timeout policy of `readMessages` -/

theorem loop_data (tc : Nat) (bytes : String) (rest : List ReadResult) :
    (readMessages.loop tc (ReadResult.data bytes :: rest)).stopped =
        (readMessages.loop 0 rest).stopped ∧
      (readMessages.loop tc (ReadResult.data bytes :: rest)).timeoutCount =
        (readMessages.loop 0 rest).timeoutCount ∧
      (readMessages.loop tc (ReadResult.data bytes :: rest)).iterations =
        [PumpEffect.MessagesReadInc, PumpEffect.Send bytes] ::
          (readMessages.loop 0 rest).iterations := by
  simp [readMessages.loop]

theorem loop_timeout_stop (tc : Nat) (rest : List ReadResult) (h : 4 ≤ tc) :
    (readMessages.loop tc (ReadResult.timeout :: rest)).stopped = true ∧
      (readMessages.loop tc (ReadResult.timeout :: rest)).timeoutCount = tc + 1 ∧
      ∃ fx, (readMessages.loop tc (ReadResult.timeout :: rest)).iterations = [fx] ∧
        sleepCount fx = 0 := by
  have h5 : maxTimeouts ≤ tc + 1 := by unfold maxTimeouts; omega
  simp [readMessages.loop, h5, sleepCount]

theorem loop_timeout_go (tc : Nat) (rest : List ReadResult) (h : tc < 4) :
    (readMessages.loop tc (ReadResult.timeout :: rest)).stopped =
        (readMessages.loop (tc + 1) rest).stopped ∧
      (readMessages.loop tc (ReadResult.timeout :: rest)).timeoutCount =
        (readMessages.loop (tc + 1) rest).timeoutCount ∧
      ∃ fx, (readMessages.loop tc (ReadResult.timeout :: rest)).iterations =
          fx :: (readMessages.loop (tc + 1) rest).iterations ∧
        sleepCount fx = 1 := by
  have h5 : ¬ maxTimeouts ≤ tc + 1 := by unfold maxTimeouts; omega
  simp [readMessages.loop, h5, sleepCount]

theorem loop_failure (tc : Nat) (rest : List ReadResult) :
    (readMessages.loop tc (ReadResult.failure :: rest)).stopped = true ∧
      (readMessages.loop tc (ReadResult.failure :: rest)).timeoutCount = tc ∧
      ∃ fx, (readMessages.loop tc (ReadResult.failure :: rest)).iterations = [fx] ∧
        sleepCount fx = 0 := by
  simp [readMessages.loop, sleepCount]

/-- A reader that stopped made at least one read. -/
theorem loop_stopped_pos (tc : Nat) (reads : List ReadResult)
    (h : (readMessages.loop tc reads).stopped = true) :
    1 ≤ (readMessages.loop tc reads).iterations.length := by
  cases reads with
  | nil => simp [readMessages.loop] at h
  | cons x rest =>
    cases x with
    | data bytes => simp [(loop_data tc bytes rest).2.2]
    | failure =>
      obtain ⟨fx, hfx, _⟩ := (loop_failure tc rest).2.2
      simp [hfx]
    | timeout =>
      by_cases h4 : 4 ≤ tc
      · obtain ⟨fx, hfx, _⟩ := (loop_timeout_stop tc rest h4).2.2
        simp [hfx]
      · obtain ⟨fx, hfx, _⟩ := (loop_timeout_go tc rest (by omega)).2.2
        simp [hfx]

/-- A reader that has not stopped made every read offered. -/
theorem loop_running_length (reads : List ReadResult) :
    ∀ tc, (readMessages.loop tc reads).stopped = false →
      (readMessages.loop tc reads).iterations.length = reads.length := by
  induction reads with
  | nil => intro tc _; simp [readMessages.loop]
  | cons x rest ih =>
    intro tc h
    cases x with
    | data bytes =>
      rw [(loop_data tc bytes rest).1] at h
      simp [(loop_data tc bytes rest).2.2, ih 0 h]
    | failure => simp [(loop_failure tc rest).1] at h
    | timeout =>
      by_cases h4 : 4 ≤ tc
      · simp [(loop_timeout_stop tc rest h4).1] at h
      · have hgo := loop_timeout_go tc rest (by omega)
        rw [hgo.1] at h
        obtain ⟨fx, hfx, _⟩ := hgo.2.2
        simp [hfx, ih (tc + 1) h]

theorem pad_get_lt (tc j : Nat) (l : List ReadResult) (h : j < tc) :
    (List.replicate tc ReadResult.timeout ++ l)[j]? = some ReadResult.timeout := by
  rw [List.getElem?_append_left (by simpa using h)]
  simp [List.getElem?_replicate, h]

theorem pad_get_ge (tc m : Nat) (l : List ReadResult) :
    (List.replicate tc ReadResult.timeout ++ l)[tc + m]? = l[m]? := by
  rw [List.getElem?_append_right (by simp)]
  simp

/-- No position inside a padding of at most four timeouts ends the connection. -/
theorem isStop_pad_small (tc j : Nat) (l : List ReadResult) (h : j < tc) (h4 : j < 4) :
    ¬ isStopPosition (List.replicate tc ReadResult.timeout ++ l) j := by
  rintro (hf | ⟨hw, _⟩)
  · rw [pad_get_lt tc j l h] at hf
    simp at hf
  · omega

/-- A frame cuts every run of timeouts: past it, the stop positions are those of the rest. -/
theorem isStop_after_data (tc m : Nat) (bytes : String) (rest : List ReadResult) :
    isStopPosition (List.replicate tc ReadResult.timeout ++ ReadResult.data bytes :: rest)
        (tc + (m + 1)) ↔ isStopPosition rest m := by
  have hget : ∀ k, (List.replicate tc ReadResult.timeout ++ ReadResult.data bytes :: rest)[tc + (k + 1)]? =
      rest[k]? := by
    intro k
    rw [pad_get_ge]
    simp
  have hdata : (List.replicate tc ReadResult.timeout ++ ReadResult.data bytes :: rest)[tc]? =
      some (ReadResult.data bytes) := by
    have := pad_get_ge tc 0 (ReadResult.data bytes :: rest)
    simpa using this
  unfold isStopPosition
  rw [hget m]
  constructor
  · rintro (hf | ⟨hw, hall⟩)
    · exact Or.inl hf
    · right
      have hm : 4 ≤ m := by
        by_contra hlt
        have := hall tc (by omega) (by omega)
        rw [hdata] at this
        simp at this
      refine ⟨hm, ?_⟩
      intro j hj1 hj2
      have := hall (tc + (j + 1)) (by omega) (by omega)
      rwa [hget j] at this
  · rintro (hf | ⟨hw, hall⟩)
    · exact Or.inl hf
    · right
      refine ⟨by omega, ?_⟩
      intro j hj1 hj2
      obtain ⟨k, rfl⟩ : ∃ k, j = tc + (k + 1) := ⟨j - tc - 1, by omega⟩
      rw [hget k]
      exact hall k (by omega) (by omega)

theorem isStop_at_data (tc : Nat) (bytes : String) (rest : List ReadResult) :
    ¬ isStopPosition (List.replicate tc ReadResult.timeout ++ ReadResult.data bytes :: rest)
        tc := by
  have hdata : (List.replicate tc ReadResult.timeout ++ ReadResult.data bytes :: rest)[tc]? =
      some (ReadResult.data bytes) := by
    have := pad_get_ge tc 0 (ReadResult.data bytes :: rest)
    simpa using this
  rintro (hf | ⟨_, hall⟩)
  · rw [hdata] at hf
    simp at hf
  · have := hall tc (by omega) (Nat.le_refl _)
    rw [hdata] at this
    simp at this

/-- The loop started with `tc ≤ 4` timeouts counted stops after `n + 1` reads exactly when
position `tc + n` is the first stop position of the reads behind a padding of `tc`
timeouts. -/
theorem loop_stops_iff (reads : List ReadResult) :
    ∀ tc n, tc ≤ 4 →
      (((readMessages.loop tc reads).stopped = true ∧
          (readMessages.loop tc reads).iterations.length = n + 1) ↔
        (isStopPosition (List.replicate tc ReadResult.timeout ++ reads) (tc + n) ∧
          ∀ j, j < tc + n →
            ¬ isStopPosition (List.replicate tc ReadResult.timeout ++ reads) j)) := by
  induction reads with
  | nil =>
    intro tc n _
    constructor
    · rintro ⟨h, _⟩
      simp [readMessages.loop] at h
    · rintro ⟨h, _⟩
      exfalso
      have hnone : (List.replicate tc ReadResult.timeout ++ ([] : List ReadResult))[tc + n]? =
          none := by
        rw [pad_get_ge]
        simp
      rcases h with hf | ⟨_, hall⟩
      · rw [hnone] at hf
        simp at hf
      · have := hall (tc + n) (by omega) (Nat.le_refl _)
        rw [hnone] at this
        simp at this
  | cons x rest ih =>
    intro tc n htc
    cases x with
    | data bytes =>
      obtain ⟨hs, _, hi⟩ := loop_data tc bytes rest
      rw [hs, hi]
      cases n with
      | zero =>
        constructor
        · rintro ⟨h1, h2⟩
          have := loop_stopped_pos 0 rest h1
          simp only [List.length_cons] at h2
          omega
        · rintro ⟨h1, _⟩
          exact absurd h1 (isStop_at_data tc bytes rest)
      | succ m =>
        have ih0 := ih 0 m (by omega)
        simp only [List.replicate_zero, List.nil_append, Nat.zero_add] at ih0
        simp only [List.length_cons, Nat.add_right_cancel_iff]
        rw [ih0, isStop_after_data]
        constructor
        · rintro ⟨h1, h2⟩
          refine ⟨h1, ?_⟩
          intro j hj
          by_cases hlt : j < tc
          · exact isStop_pad_small tc j _ hlt (by omega)
          · by_cases heq : j = tc
            · subst heq
              exact isStop_at_data j bytes rest
            · obtain ⟨k, rfl⟩ : ∃ k, j = tc + (k + 1) := ⟨j - tc - 1, by omega⟩
              rw [isStop_after_data]
              exact h2 k (by omega)
        · rintro ⟨h1, h2⟩
          refine ⟨h1, ?_⟩
          intro j hj
          have := h2 (tc + (j + 1)) (by omega)
          rwa [isStop_after_data] at this
    | failure =>
      obtain ⟨hs, _, fx, hi, _⟩ := loop_failure tc rest
      rw [hs, hi]
      have hfail : isStopPosition
          (List.replicate tc ReadResult.timeout ++ ReadResult.failure :: rest) tc := by
        left
        have := pad_get_ge tc 0 (ReadResult.failure :: rest)
        simpa using this
      constructor
      · rintro ⟨_, h2⟩
        have hn : n = 0 := by simpa using h2.symm
        subst hn
        refine ⟨hfail, ?_⟩
        intro j hj
        exact isStop_pad_small tc j _ (by omega) (by omega)
      · rintro ⟨_, h2⟩
        have hn : n = 0 := by
          by_contra hne
          exact h2 tc (by omega) hfail
        subst hn
        simp
    | timeout =>
      have hpad : List.replicate tc ReadResult.timeout ++ ReadResult.timeout :: rest =
          List.replicate (tc + 1) ReadResult.timeout ++ rest := by
        rw [List.replicate_succ', List.append_assoc]
        rfl
      by_cases h4 : 4 ≤ tc
      · have htc4 : tc = 4 := by omega
        obtain ⟨hs, _, fx, hi, _⟩ := loop_timeout_stop tc rest h4
        rw [hs, hi, hpad]
        have hstop : isStopPosition
            (List.replicate (tc + 1) ReadResult.timeout ++ rest) tc := by
          right
          refine ⟨h4, ?_⟩
          intro j _ hj2
          exact pad_get_lt (tc + 1) j rest (by omega)
        constructor
        · rintro ⟨_, h2⟩
          have hn : n = 0 := by simpa using h2.symm
          subst hn
          refine ⟨hstop, ?_⟩
          intro j hj
          exact isStop_pad_small (tc + 1) j _ (by omega) (by omega)
        · rintro ⟨_, h2⟩
          have hn : n = 0 := by
            by_contra hne
            exact h2 tc (by omega) hstop
          subst hn
          simp
      · obtain ⟨hs, _, fx, hi, _⟩ := loop_timeout_go tc rest (by omega)
        rw [hs, hi, hpad]
        cases n with
        | zero =>
          constructor
          · rintro ⟨h1, h2⟩
            have := loop_stopped_pos (tc + 1) rest h1
            simp only [List.length_cons] at h2
            omega
          · rintro ⟨h1, _⟩
            exact absurd h1 (isStop_pad_small (tc + 1) tc rest (by omega) (by omega))
        | succ m =>
          have ih1 := ih (tc + 1) m (by omega)
          simp only [List.length_cons, Nat.add_right_cancel_iff]
          rw [ih1]
          have hidx : tc + 1 + m = tc + (m + 1) := by omega
          rw [hidx]

/-- What one iteration of the loop does, by the result it read. -/
theorem loop_iteration (reads : List ReadResult) :
    ∀ tc i fx, (readMessages.loop tc reads).iterations[i]? = some fx →
      (∀ bytes, reads[i]? = some (ReadResult.data bytes) →
        fx = [PumpEffect.MessagesReadInc, PumpEffect.Send bytes]) ∧
      (reads[i]? = some ReadResult.failure →
        sleepCount fx = 0 ∧ (readMessages.loop tc reads).stopped = true ∧
          (readMessages.loop tc reads).iterations.length = i + 1) ∧
      (reads[i]? = some ReadResult.timeout →
        (((readMessages.loop tc reads).stopped = true ∧
            (readMessages.loop tc reads).iterations.length = i + 1) → sleepCount fx = 0) ∧
        (¬ ((readMessages.loop tc reads).stopped = true ∧
            (readMessages.loop tc reads).iterations.length = i + 1) → sleepCount fx = 1)) := by
  induction reads with
  | nil =>
    intro tc i fx h
    simp [readMessages.loop] at h
  | cons x rest ih =>
    intro tc i fx h
    cases x with
    | data bytes =>
      obtain ⟨hs, _, hi⟩ := loop_data tc bytes rest
      rw [hs, hi]
      rw [hi] at h
      cases i with
      | zero =>
        simp only [List.getElem?_cons_zero, Option.some.injEq] at h
        subst h
        refine ⟨?_, ?_, ?_⟩
        · intro b hb
          simp only [List.getElem?_cons_zero, Option.some.injEq, ReadResult.data.injEq] at hb
          subst hb
          rfl
        · intro hf
          simp at hf
        · intro hf
          simp at hf
      | succ k =>
        simp only [List.getElem?_cons_succ] at h
        have := ih 0 k fx h
        simpa only [List.getElem?_cons_succ, List.length_cons, Nat.add_right_cancel_iff]
          using this
    | failure =>
      obtain ⟨hs, _, fx0, hi, hsc⟩ := loop_failure tc rest
      rw [hs, hi]
      rw [hi] at h
      cases i with
      | zero =>
        simp only [List.getElem?_cons_zero, Option.some.injEq] at h
        subst h
        refine ⟨?_, ?_, ?_⟩
        · intro b hb
          simp at hb
        · intro _
          exact ⟨hsc, rfl, rfl⟩
        · intro hf
          simp at hf
      | succ k => simp at h
    | timeout =>
      by_cases h4 : 4 ≤ tc
      · obtain ⟨hs, _, fx0, hi, hsc⟩ := loop_timeout_stop tc rest h4
        rw [hs, hi]
        rw [hi] at h
        cases i with
        | zero =>
          simp only [List.getElem?_cons_zero, Option.some.injEq] at h
          subst h
          refine ⟨?_, ?_, ?_⟩
          · intro b hb
            simp at hb
          · intro hf
            simp at hf
          · intro _
            exact ⟨fun _ => hsc, fun hn => absurd ⟨rfl, rfl⟩ hn⟩
        | succ k => simp at h
      · obtain ⟨hs, _, fx0, hi, hsc⟩ := loop_timeout_go tc rest (by omega)
        rw [hs, hi]
        rw [hi] at h
        cases i with
        | zero =>
          simp only [List.getElem?_cons_zero, Option.some.injEq] at h
          subst h
          refine ⟨?_, ?_, ?_⟩
          · intro b hb
            simp at hb
          · intro hf
            simp at hf
          · intro _
            refine ⟨?_, fun _ => hsc⟩
            rintro ⟨h1, h2⟩
            have := loop_stopped_pos (tc + 1) rest h1
            simp only [List.length_cons] at h2
            omega
        | succ k =>
          simp only [List.getElem?_cons_succ] at h
          have := ih (tc + 1) k fx h
          simpa only [List.getElem?_cons_succ, List.length_cons, Nat.add_right_cancel_iff]
            using this

/-- While the reader runs on timeouts only, the counter grows by one per timeout. -/
theorem loop_timeouts_count (k : Nat) :
    ∀ tc, (readMessages.loop tc (List.replicate k ReadResult.timeout)).stopped = false →
      (readMessages.loop tc (List.replicate k ReadResult.timeout)).timeoutCount = tc + k := by
  induction k with
  | zero => intro tc _; simp [readMessages.loop]
  | succ k ih =>
    intro tc h
    rw [List.replicate_succ] at h ⊢
    by_cases h4 : 4 ≤ tc
    · simp [(loop_timeout_stop tc _ h4).1] at h
    · obtain ⟨hs, hc, _⟩ := loop_timeout_go tc (List.replicate k ReadResult.timeout) (by omega)
      rw [hs] at h
      rw [hc, ih (tc + 1) h]
      omega

/-- After a frame the counter holds the number of timeouts read since that frame. -/
theorem loop_count_after_data (bytes : String) (k : Nat) (pre : List ReadResult) :
    ∀ tc,
      (readMessages.loop tc
        (pre ++ ReadResult.data bytes :: List.replicate k ReadResult.timeout)).stopped = false →
      (readMessages.loop tc
        (pre ++ ReadResult.data bytes :: List.replicate k ReadResult.timeout)).timeoutCount =
          k := by
  induction pre with
  | nil =>
    intro tc h
    simp only [List.nil_append] at h ⊢
    rw [(loop_data tc bytes _).1] at h
    rw [(loop_data tc bytes _).2.1, loop_timeouts_count k 0 h]
    omega
  | cons x rest ih =>
    intro tc h
    simp only [List.cons_append] at h ⊢
    cases x with
    | data b =>
      rw [(loop_data tc b _).1] at h
      rw [(loop_data tc b _).2.1]
      exact ih 0 h
    | failure => simp [(loop_failure tc _).1] at h
    | timeout =>
      by_cases h4 : 4 ≤ tc
      · simp [(loop_timeout_stop tc _ h4).1] at h
      · obtain ⟨hs, hc, _⟩ := loop_timeout_go tc
          (rest ++ ReadResult.data bytes :: List.replicate k ReadResult.timeout) (by omega)
        rw [hs] at h
        rw [hc]
        exact ih (tc + 1) h

/-- C8. Over every sequence of read results: the reader stops at position `i` exactly when
`i` is the first position that is a non-timeout error or the fifth timeout in a row, and a
reader that has not stopped has made every read; after a frame the counter of timeouts is
the number of timeouts read since that frame, zero right after the frame; the iteration of a
non-timeout error stops the reader and sleeps not at all; the iteration of a timeout sleeps
once when the reader goes on, and not at all when it is the fifth and the reader stops. -/
theorem readMessages_timeout_policy (reads : List ReadResult) :
    (∀ i, stopsAt reads i ↔
      (isStopPosition reads i ∧ ∀ j, j < i → ¬ isStopPosition reads j)) ∧
    ((readMessages reads).stopped = false →
      (readMessages reads).iterations.length = reads.length) ∧
    (∀ pre bytes k, reads = pre ++ ReadResult.data bytes :: List.replicate k ReadResult.timeout →
      (readMessages reads).stopped = false → (readMessages reads).timeoutCount = k) ∧
    (∀ i fx, (readMessages reads).iterations[i]? = some fx →
      (reads[i]? = some ReadResult.failure → stopsAt reads i ∧ sleepCount fx = 0) ∧
      (reads[i]? = some ReadResult.timeout →
        (stopsAt reads i → sleepCount fx = 0) ∧ (¬ stopsAt reads i → sleepCount fx = 1))) := by
  refine ⟨?_, ?_, ?_, ?_⟩
  · intro i
    have := loop_stops_iff reads 0 i (by omega)
    simpa only [List.replicate_zero, List.nil_append, Nat.zero_add] using this
  · exact loop_running_length reads 0
  · intro pre bytes k hreads h
    subst hreads
    exact loop_count_after_data bytes k pre 0 h
  · intro i fx h
    obtain ⟨_, hf, ht⟩ := loop_iteration reads 0 i fx h
    refine ⟨?_, ?_⟩
    · intro hfail
      obtain ⟨h1, h2, h3⟩ := hf hfail
      exact ⟨⟨h2, h3⟩, h1⟩
    · intro htime
      exact ht htime

/-- The witness of C8: after four timeouts and a frame, the reader stops at the fifth
timeout in a row, position 9, which is a stop position; position 3, the fourth timeout in a
row, is none. -/
theorem readMessages_timeout_policy_witness :
    stopsAt exampleReads 9 ∧ isStopPosition exampleReads 9 ∧
      ¬ isStopPosition exampleReads 3 :=
  ⟨⟨by decide, by decide⟩,
    (((readMessages_timeout_policy exampleReads).1 9).mp ⟨by decide, by decide⟩).1,
    (((readMessages_timeout_policy exampleReads).1 9).mp ⟨by decide, by decide⟩).2 3
      (by decide)⟩

/-! ## Well-formedness is kept by every operation -/

theorem roomEntry_delete_wf (k : String) (room : Room) (clientID : String)
    (h : room.Name = k ∧ (mapKeys room.Clients).Nodup ∧
      ∀ m ∈ room.Clients, m.2.ID = m.1 ∧ m.2.Conn.ID = m.1) :
    ({ room with Clients := mapDelete room.Clients clientID } : Room).Name = k ∧
      (mapKeys ({ room with Clients := mapDelete room.Clients clientID } : Room).Clients).Nodup ∧
      ∀ m ∈ ({ room with Clients := mapDelete room.Clients clientID } : Room).Clients,
        m.2.ID = m.1 ∧ m.2.Conn.ID = m.1 :=
  ⟨h.1, mapKeys_mapDelete_nodup _ _ h.2.1,
    fun m hm => h.2.2 m ((mem_mapDelete _ _ _).mp hm).1⟩

theorem Op_apply_WF (uc : RoomUseCase) (op : Op) (h : uc.WF) : (Op.apply uc op).1.WF := by
  refine ⟨Op_apply_nodup uc op h.1, ?_⟩
  cases op with
  | JoinRoom client roomName =>
    simp only [Op.apply]
    rw [JoinRoom_rooms]
    intro e he
    rcases mem_mapSet _ _ _ _ he with h1 | h1
    · subst h1
      cases hg : mapGet uc.rooms roomName with
      | none => simp [mapKeys]
      | some room =>
        have hr := h.2 _ (mapGet_mem _ _ _ hg)
        refine ⟨hr.1, mapKeys_mapSet_nodup _ _ _ hr.2.1, ?_⟩
        intro m hm
        rcases mem_mapSet _ _ _ _ hm with h2 | h2
        · subst h2
          exact ⟨rfl, rfl⟩
        · exact hr.2.2 m h2
    · exact h.2 e h1
  | LeaveRoom clientID roomName =>
    simp only [Op.apply]
    cases hg : mapGet uc.rooms roomName with
    | none =>
      rw [LeaveRoom_absent uc clientID roomName hg]
      exact h.2
    | some room =>
      rw [LeaveRoom_rooms uc clientID roomName room hg]
      intro e he
      by_cases hl : (mapDelete room.Clients clientID).length = 0
      · simp only [hl, if_true] at he
        exact h.2 e ((mem_mapDelete _ _ _).mp he).1
      · simp only [hl, if_false] at he
        rcases mem_mapSet _ _ _ _ he with h1 | h1
        · subst h1
          exact roomEntry_delete_wf roomName room clientID (h.2 _ (mapGet_mem _ _ _ hg))
        · exact h.2 e h1
  | RemoveClient clientID =>
    simp only [Op.apply, RemoveClient]
    intro e he
    rcases RemoveClient_range_mem clientID uc.rooms e he with h1 | ⟨room, h1, _, h3, _⟩
    · exact h.2 e h1.1
    · rw [h3]
      exact roomEntry_delete_wf e.1 room clientID (h.2 _ h1)

/-- Every registry reached from the empty one is well formed. -/
theorem run_WF (ops : List Op) : (run ops).1.WF := by
  apply exec_preserves RoomUseCase.WF Op_apply_WF
  exact ⟨by simp [NewRoomUseCase, mapKeys], by simp [NewRoomUseCase]⟩

/-! ## C11: `LeaveRoom` on a room that does not exist -/

/-- C11. For every registry, client id and room name `r` that is not a key of the registry,
`LeaveRoom(id, r)` only logs that the room does not exist: the registry, and with it the
membership of every room, is unchanged, and no relay call is made, so no `left` notification
is published and nothing is unsubscribed. -/
theorem LeaveRoom_absent_noop (uc : RoomUseCase) (clientID r : String)
    (h : r ∉ uc.roomNames) :
    (LeaveRoom uc clientID r).1 = uc ∧
      (∀ k r2, (LeaveRoom uc clientID r).1.isMember k r2 = uc.isMember k r2) ∧
      (LeaveRoom uc clientID r).2 =
        [Effect.Log ("[RoomUseCase] Room " ++ r ++ " does not exist")] ∧
      (∀ e ∈ (LeaveRoom uc clientID r).2, e.isRelay = false) ∧
      (∀ room msg, Effect.Publish room msg ∉ (LeaveRoom uc clientID r).2) := by
  have hg : mapGet uc.rooms r = none := (mapGet_eq_none_iff _ _).mpr h
  have hno := LeaveRoom_absent uc clientID r hg
  rw [hno]
  refine ⟨rfl, fun _ _ => rfl, rfl, ?_, ?_⟩
  · intro e he
    simp only [List.mem_singleton] at he
    subst he
    rfl
  · intro room msg hmem
    simp at hmem

/-- The witness of C11: a client leaves room `Z`, which the example registry does not
hold. -/
theorem LeaveRoom_absent_noop_witness :
    "Z" ∉ exampleRegistry.roomNames ∧ (LeaveRoom exampleRegistry "x" "Z").1 = exampleRegistry :=
  ⟨by decide, (LeaveRoom_absent_noop exampleRegistry "x" "Z" (by decide)).1⟩

/-! ## C12: joining twice -/

/-- C12. For every registry, client and room name `r`, a second `JoinRoom(client, r)` right
after the first leaves the registry, and so the membership of every room, as the first call
left it: the client is a member of `r`, no entry is added or removed, and the second call
issues no `Subscribe`; it logs the join and publishes the `joined` notification again. -/
theorem JoinRoom_twice (uc : RoomUseCase) (client : Client) (r : String) :
    (JoinRoom (JoinRoom uc client r).1 client r).1 = (JoinRoom uc client r).1 ∧
      (JoinRoom uc client r).1.isMember client.ID r = true ∧
      (JoinRoom (JoinRoom uc client r).1 client r).2 =
        [ Effect.Log ("[RoomUseCase] Client " ++ client.ID ++ " joined room " ++ r),
          Effect.Publish r (r ++ "|" ++ client.ID ++ " joined the room") ] ∧
      (∀ r2, subscribeCount (JoinRoom (JoinRoom uc client r).1 client r).2 r2 = 0) := by
  have hrooms := JoinRoom_rooms uc client r
  have hget : ∀ room1, (JoinRoom uc client r).1.rooms = mapSet uc.rooms r room1 →
      mapGet (JoinRoom uc client r).1.rooms r = some room1 := by
    intro room1 h1
    rw [h1]
    exact mapGet_mapSet_self _ _ _
  have hfx : (JoinRoom (JoinRoom uc client r).1 client r).2 =
      [ Effect.Log ("[RoomUseCase] Client " ++ client.ID ++ " joined room " ++ r),
        Effect.Publish r (r ++ "|" ++ client.ID ++ " joined the room") ] := by
    rw [JoinRoom_effects, hget _ hrooms]
    rfl
  refine ⟨?_, ?_, hfx, ?_⟩
  · have h2 := JoinRoom_rooms (JoinRoom uc client r).1 client r
    rw [hget _ hrooms] at h2
    have hst : ∀ a b : RoomUseCase, a.rooms = b.rooms → a = b := by
      intro a b hab
      cases a
      cases b
      simp only at hab
      rw [hab]
    apply hst
    rw [h2, hrooms, mapSet_mapSet]
    cases hg : mapGet uc.rooms r with
    | none => simp [mapSet]
    | some room => simp [mapSet_mapSet]
  · unfold RoomUseCase.isMember
    rw [hget _ hrooms]
    cases hg : mapGet uc.rooms r with
    | none => simp [mapGet]
    | some room => simp [mapGet_mapSet_self]
  · intro r2
    rw [hfx]
    simp [subscribeCount]

/-! ## C14: leaving a room one is not in -/

theorem mapDelete_absent {β : Type} (m : List (String × β)) (k : String)
    (h : mapGet m k = none) : mapDelete m k = m := by
  induction m with
  | nil => rfl
  | cons e rest ih =>
    obtain ⟨k1, v1⟩ := e
    by_cases hk : k1 = k
    · simp [mapGet, hk] at h
    · simp only [mapGet, hk, if_false] at h
      simp [mapDelete, hk, ih h]

theorem mapSet_same {β : Type} (m : List (String × β)) (k : String) (v : β)
    (h : mapGet m k = some v) : mapSet m k v = m := by
  induction m with
  | nil => simp [mapGet] at h
  | cons e rest ih =>
    obtain ⟨k1, v1⟩ := e
    by_cases hk : k1 = k
    · simp only [mapGet, hk, if_true, Option.some.injEq] at h
      simp [mapSet, hk, h]
    · simp only [mapGet, hk, if_false] at h
      simp [mapSet, hk, ih h]

/-- The notifications published by the loop of `RemoveClient` are the `left` notifications of
the rooms that held the client. -/
theorem RemoveClient_range_publish (clientID r msg : String) (rooms : List (String × Room)) :
    Effect.Publish r msg ∈ (RemoveClient.range clientID rooms).2 ↔
      (msg = r ++ "|" ++ clientID ++ " left the room" ∧
        ∃ room, (r, room) ∈ rooms ∧ mapGet room.Clients clientID ≠ none) := by
  induction rooms with
  | nil => simp [RemoveClient.range]
  | cons e1 rest ih =>
    obtain ⟨k1, room1⟩ := e1
    unfold RemoveClient.range
    cases hg : mapGet room1.Clients clientID with
    | none =>
      simp only [ih, List.mem_cons, Prod.mk.injEq]
      constructor
      · rintro ⟨h1, room, h2, h3⟩
        exact ⟨h1, room, Or.inr h2, h3⟩
      · rintro ⟨h1, room, h2 | h2, h3⟩
        · rw [h2.2, hg] at h3
          exact absurd rfl h3
        · exact ⟨h1, room, h2, h3⟩
    | some cc =>
      have hhead : Effect.Publish r msg = Effect.Publish k1 (k1 ++ "|" ++ clientID ++ " left the room") ↔
          (msg = r ++ "|" ++ clientID ++ " left the room" ∧ r = k1) := by
        constructor
        · intro h
          simp only [Effect.Publish.injEq] at h
          obtain ⟨h1, h2⟩ := h
          subst h1
          exact ⟨h2, rfl⟩
        · rintro ⟨h1, h2⟩
          subst h2
          rw [h1]
      by_cases he : (mapDelete room1.Clients clientID).length = 0
      · simp only [he, beq_self_eq_true, if_true, List.mem_cons, hhead, ih, Prod.mk.injEq,
          reduceCtorEq, false_or]
        constructor
        · rintro (⟨h1, h2⟩ | ⟨h1, room, h2, h3⟩)
          · exact ⟨h1, room1, Or.inl ⟨h2, rfl⟩, by simp [hg]⟩
          · exact ⟨h1, room, Or.inr h2, h3⟩
        · rintro ⟨h1, room, h2 | h2, h3⟩
          · exact Or.inl ⟨h1, h2.1⟩
          · exact Or.inr ⟨h1, room, h2, h3⟩
      · simp only [beq_iff_eq, he, if_false, List.mem_cons, hhead, ih, Prod.mk.injEq,
          reduceCtorEq, false_or]
        constructor
        · rintro (⟨h1, h2⟩ | ⟨h1, room, h2, h3⟩)
          · exact ⟨h1, room1, Or.inl ⟨h2, rfl⟩, by simp [hg]⟩
          · exact ⟨h1, room, Or.inr h2, h3⟩
        · rintro ⟨h1, room, h2 | h2, h3⟩
          · exact Or.inl ⟨h1, h2.1⟩
          · exact Or.inr ⟨h1, room, h2, h3⟩

/-- C14. For every registry (room names distinct), every room `r` in it and every client id
that is not a member of `r`: `LeaveRoom(id, r)` leaves the membership of `r` unchanged (the
whole registry, when `r` has a member) and still publishes the `left` notification of `id`
for `r`, once, and nothing else; `RemoveClient(id)` publishes nothing for `r`, and every
notification it publishes is the `left` notification of a room `id` was a member of. -/
theorem LeaveRoom_RemoveClient_nonmember (uc : RoomUseCase) (clientID r : String) (room : Room)
    (hmap : (mapKeys uc.rooms).Nodup) (hroom : mapGet uc.rooms r = some room)
    (hnot : mapGet room.Clients clientID = none) :
    (∀ k, (LeaveRoom uc clientID r).1.isMember k r = uc.isMember k r) ∧
    (room.Clients ≠ [] → (LeaveRoom uc clientID r).1 = uc) ∧
    (LeaveRoom uc clientID r).2.count
        (Effect.Publish r (r ++ "|" ++ clientID ++ " left the room")) = 1 ∧
    (∀ r2 msg, Effect.Publish r2 msg ∈ (LeaveRoom uc clientID r).2 →
      r2 = r ∧ msg = r ++ "|" ++ clientID ++ " left the room") ∧
    (∀ msg, Effect.Publish r msg ∉ (RemoveClient uc clientID).2) ∧
    (∀ r2 msg, Effect.Publish r2 msg ∈ (RemoveClient uc clientID).2 →
      uc.isMember clientID r2 = true ∧ msg = r2 ++ "|" ++ clientID ++ " left the room") := by
  have hdel : mapDelete room.Clients clientID = room.Clients := mapDelete_absent _ _ hnot
  have hrooms := LeaveRoom_rooms uc clientID r room hroom
  have hfx := LeaveRoom_effects uc clientID r room hroom
  rw [hdel] at hrooms hfx
  have hsame : mapSet uc.rooms r { room with Clients := room.Clients } = uc.rooms :=
    mapSet_same uc.rooms r room hroom
  refine ⟨?_, ?_, ?_, ?_, ?_, ?_⟩
  · intro k
    unfold RoomUseCase.isMember
    rw [hrooms, hroom]
    by_cases he : room.Clients.length = 0
    · have hnil : room.Clients = [] := List.length_eq_zero.mp he
      simp [he, mapGet_mapDelete_self, hnil, mapGet]
    · simp only [he, if_false]
      rw [hsame, hroom]
  · intro hne
    have he : ¬ room.Clients.length = 0 := fun h0 => hne (List.length_eq_zero.mp h0)
    have hst : ∀ a b : RoomUseCase, a.rooms = b.rooms → a = b := by
      intro a b hab
      cases a
      cases b
      simp only at hab
      rw [hab]
    apply hst
    rw [hrooms]
    simp only [he, if_false]
    exact hsame
  · rw [hfx]
    by_cases he : room.Clients.length = 0 <;> simp [he, List.count_cons]
  · intro r2 msg hmem
    rw [hfx] at hmem
    by_cases he : room.Clients.length = 0
    · simp [he] at hmem
      exact hmem
    · simp [he] at hmem
      exact hmem
  · intro msg hmem
    simp only [RemoveClient] at hmem
    obtain ⟨_, room2, h2, h3⟩ := (RemoveClient_range_publish clientID r msg uc.rooms).mp hmem
    have hg := mapGet_of_mem uc.rooms r room2 hmap h2
    rw [hroom] at hg
    cases hg
    exact h3 hnot
  · intro r2 msg hmem
    simp only [RemoveClient] at hmem
    obtain ⟨h1, room2, h2, h3⟩ := (RemoveClient_range_publish clientID r2 msg uc.rooms).mp hmem
    have hg := mapGet_of_mem uc.rooms r2 room2 hmap h2
    refine ⟨?_, h1⟩
    unfold RoomUseCase.isMember
    rw [hg]
    cases hc : mapGet room2.Clients clientID with
    | none => exact absurd hc h3
    | some cc => simp [hc]

/-- The witness of C14: `y` is in room `A` only; `LeaveRoom("y", "B")` leaves the registry as
it is and publishes that `y` left `B`, while `RemoveClient("y")` publishes nothing for `B`. -/
theorem LeaveRoom_RemoveClient_nonmember_witness :
    (LeaveRoom exampleRegistry "y" "B").1 = exampleRegistry ∧
      (LeaveRoom exampleRegistry "y" "B").2.count
        (Effect.Publish "B" ("B" ++ "|" ++ "y" ++ " left the room")) = 1 ∧
      Effect.Publish "B" ("B" ++ "|" ++ "y" ++ " left the room") ∉
        (RemoveClient exampleRegistry "y").2 :=
  ⟨(LeaveRoom_RemoveClient_nonmember exampleRegistry "y" "B"
      { Name := "B", Clients := [("x", { ID := "x", Conn := exampleClient "x" 1 })] }
      (by decide) (by decide) (by decide)).2.1 (by decide),
    (LeaveRoom_RemoveClient_nonmember exampleRegistry "y" "B"
      { Name := "B", Clients := [("x", { ID := "x", Conn := exampleClient "x" 1 })] }
      (by decide) (by decide) (by decide)).2.2.1,
    (LeaveRoom_RemoveClient_nonmember exampleRegistry "y" "B"
      { Name := "B", Clients := [("x", { ID := "x", Conn := exampleClient "x" 1 })] }
      (by decide) (by decide) (by decide)).2.2.2.2.1 _⟩

/-! ## C13: relay calls and room locks -/

theorem calls_map_Call (fx : List Effect) (rest : List Step) :
    Step.calls (fx.map Step.Call ++ rest) = fx ++ Step.calls rest := by
  induction fx with
  | nil => rfl
  | cons e tail ih => simp [Step.calls, ih]

/-- The steps of `JoinRoom` make the calls of `JoinRoom`. -/
theorem JoinRoom_steps_calls (uc : RoomUseCase) (client : Client) (roomName : String) :
    Step.calls (JoinRoom.steps uc client roomName) = (JoinRoom uc client roomName).2 := by
  rw [JoinRoom_effects]
  unfold JoinRoom.steps
  cases mapGet uc.rooms roomName with
  | none => simp [Step.calls, startPubSubListener]
  | some room => simp [Step.calls]

/-- The steps of `LeaveRoom` make the calls of `LeaveRoom`. -/
theorem LeaveRoom_steps_calls (uc : RoomUseCase) (clientID roomName : String) :
    Step.calls (LeaveRoom.steps uc clientID roomName) = (LeaveRoom uc clientID roomName).2 := by
  cases hg : mapGet uc.rooms roomName with
  | none =>
    rw [LeaveRoom_absent uc clientID roomName hg]
    simp [LeaveRoom.steps, hg, Step.calls]
  | some room =>
    rw [LeaveRoom_effects uc clientID roomName room hg]
    by_cases he : (mapDelete room.Clients clientID).length = 0
    · simp [LeaveRoom.steps, hg, he, Step.calls]
    · simp [LeaveRoom.steps, hg, he, Step.calls]

theorem RemoveClient_rangeSteps_calls (clientID : String) (rooms : List (String × Room))
    (rest : List Step) :
    Step.calls (RemoveClient.rangeSteps clientID rooms ++ rest) =
      (RemoveClient.range clientID rooms).2 ++ Step.calls rest := by
  induction rooms with
  | nil => simp [RemoveClient.rangeSteps, RemoveClient.range]
  | cons e1 tail ih =>
    obtain ⟨k1, room1⟩ := e1
    unfold RemoveClient.rangeSteps RemoveClient.range
    cases hg : mapGet room1.Clients clientID with
    | none => simp [Step.calls, ih]
    | some cc =>
      by_cases he : (mapDelete room1.Clients clientID).length = 0
      · simp [he, Step.calls, ih]
      · simp [he, Step.calls, ih]

/-- The steps of `RemoveClient` make the calls of `RemoveClient`. -/
theorem RemoveClient_steps_calls (uc : RoomUseCase) (clientID : String) :
    Step.calls (RemoveClient.steps uc clientID) = (RemoveClient uc clientID).2 := by
  unfold RemoveClient.steps RemoveClient
  simp [Step.calls, RemoveClient_rangeSteps_calls]

/-- The steps of `BroadcastToLocalRoom` make the calls of `BroadcastToLocalRoom`. -/
theorem BroadcastToLocalRoom_steps_calls (uc : RoomUseCase)
    (writeErr : ClientConn → Option String) (roomName message : String) :
    Step.calls (BroadcastToLocalRoom.steps uc writeErr roomName message) =
      BroadcastToLocalRoom uc writeErr roomName message := by
  unfold BroadcastToLocalRoom.steps BroadcastToLocalRoom
  cases mapGet uc.rooms roomName with
  | none => simp [Step.calls]
  | some room =>
    simp only [Step.calls]
    rw [calls_map_Call]
    simp [Step.calls]

theorem scan_nonrelay_calls (fx : List Effect) (held : List String) (rest : List Step)
    (h : ∀ e ∈ fx, e.isRelay = false) :
    relayUnderRoomLock.scan held (fx.map Step.Call ++ rest) =
      relayUnderRoomLock.scan held rest := by
  induction fx with
  | nil => rfl
  | cons e tail ih =>
    have he : e.isRelay = false := h e (List.mem_cons_self _ _)
    have ht := ih (fun x hx => h x (List.mem_cons_of_mem _ hx))
    simp [relayUnderRoomLock.scan, he, ht]

theorem scan_no_lock_calls (fx : List Effect) :
    relayUnderRoomLock.scan [] (fx.map Step.Call) = false := by
  induction fx with
  | nil => rfl
  | cons e tail ih => simp [relayUnderRoomLock.scan, ih]

/-- For every registry, client and room name, `JoinRoom` makes no relay call while it holds a
room lock. -/
theorem JoinRoom_no_relay_under_room_lock (uc : RoomUseCase) (client : Client)
    (roomName : String) : relayUnderRoomLock (JoinRoom.steps uc client roomName) = false := by
  unfold relayUnderRoomLock JoinRoom.steps
  cases mapGet uc.rooms roomName with
  | none => simp [relayUnderRoomLock.scan, startPubSubListener]
  | some room => simp [relayUnderRoomLock.scan]

/-- For every registry, client id and room name, `LeaveRoom` makes no relay call while it
holds a room lock. -/
theorem LeaveRoom_no_relay_under_room_lock (uc : RoomUseCase) (clientID roomName : String) :
    relayUnderRoomLock (LeaveRoom.steps uc clientID roomName) = false := by
  unfold relayUnderRoomLock LeaveRoom.steps
  cases mapGet uc.rooms roomName with
  | none => simp [relayUnderRoomLock.scan]
  | some room =>
    by_cases he : (mapDelete room.Clients clientID).length = 0
    · simp [relayUnderRoomLock.scan, he]
    · simp [relayUnderRoomLock.scan, he]

/-- The method `BroadcastMessage` takes no lock at all. -/
theorem BroadcastMessage_no_relay_under_room_lock (roomName message : String)
    (publishErr : Option String) :
    relayUnderRoomLock (BroadcastMessage.steps roomName message publishErr) = false :=
  scan_no_lock_calls _

theorem send_not_relay (writeErr : ClientConn → Option String) (message : String)
    (cc : ClientConn) : ∀ e ∈ BroadcastToLocalRoom.send writeErr message cc, e.isRelay = false := by
  intro e he
  unfold BroadcastToLocalRoom.send at he
  cases hc : cc.Conn.Conn with
  | none => simp [hc] at he
  | some conn =>
    cases hw : writeErr cc with
    | none =>
      simp [hc, hw] at he
      subst he
      rfl
    | some err =>
      simp [hc, hw] at he
      rcases he with he | he <;> subst he <;> rfl

/-- The method `BroadcastToLocalRoom` makes no relay call at all, so none under the read lock
of the room. -/
theorem BroadcastToLocalRoom_no_relay_under_room_lock (uc : RoomUseCase)
    (writeErr : ClientConn → Option String) (roomName message : String) :
    relayUnderRoomLock (BroadcastToLocalRoom.steps uc writeErr roomName message) = false := by
  unfold relayUnderRoomLock BroadcastToLocalRoom.steps
  cases mapGet uc.rooms roomName with
  | none => simp [relayUnderRoomLock.scan, Effect.isRelay]
  | some room =>
    simp only [relayUnderRoomLock.scan]
    rw [scan_nonrelay_calls]
    · simp [relayUnderRoomLock.scan]
    · intro e he
      simp only [List.mem_flatten, List.mem_map] at he
      obtain ⟨fx, ⟨entry, _, hfx⟩, hmem⟩ := he
      subst hfx
      exact send_not_relay writeErr message entry.2 e hmem

theorem RemoveClient_rangeSteps_scan (clientID : String) (rooms : List (String × Room))
    (rest : List Step) :
    relayUnderRoomLock.scan [] (RemoveClient.rangeSteps clientID rooms ++ rest) =
      (rooms.any (fun e => (mapGet e.2.Clients clientID).isSome) ||
        relayUnderRoomLock.scan [] rest) := by
  induction rooms with
  | nil => simp [RemoveClient.rangeSteps]
  | cons e1 tail ih =>
    obtain ⟨k1, room1⟩ := e1
    unfold RemoveClient.rangeSteps
    cases hg : mapGet room1.Clients clientID with
    | none => simp [relayUnderRoomLock.scan, hg, ih]
    | some cc =>
      by_cases he : (mapDelete room1.Clients clientID).length = 0
      · simp [relayUnderRoomLock.scan, hg, he, Effect.isRelay]
      · simp [relayUnderRoomLock.scan, hg, he, Effect.isRelay]

/-- For every registry and client id, `RemoveClient` makes a relay call while it holds a room
lock exactly when the client is in some room of the registry: the `Unsubscribe` and `Publish`
calls of an iteration are made before the `room.Mutex.Unlock()` of that iteration. -/
theorem RemoveClient_relay_under_room_lock_iff (uc : RoomUseCase) (clientID : String) :
    relayUnderRoomLock (RemoveClient.steps uc clientID) =
      uc.rooms.any (fun e => (mapGet e.2.Clients clientID).isSome) := by
  unfold relayUnderRoomLock RemoveClient.steps
  simp only [relayUnderRoomLock.scan]
  rw [RemoveClient_rangeSteps_scan]
  simp [relayUnderRoomLock.scan]

/-- C13, evaluated on the code. In the example registry `x` is in rooms `A`, `B`, `C`.
`RemoveClient("x")` takes the lock of room `A`, logs, and publishes the `left` notification
of `A` before it releases that lock: a relay call is made while a room lock is held. The
steps make exactly the calls of `RemoveClient`; `LeaveRoom("x", "B")`, which does the same
teardown, makes its relay calls outside the room lock. -/
theorem RemoveClient_relay_under_room_lock :
    (RemoveClient.steps exampleRegistry "x").take 5 =
        [ Step.RegistryLock, Step.RoomLock "A",
          Step.Call (Effect.Log "[RoomUseCase] Client x removed from room A"),
          Step.Call (Effect.Publish "A" "A|x left the room"),
          Step.RoomUnlock "A" ] ∧
      relayUnderRoomLock (RemoveClient.steps exampleRegistry "x") = true ∧
      Step.calls (RemoveClient.steps exampleRegistry "x") = (RemoveClient exampleRegistry "x").2 ∧
      relayUnderRoomLock (LeaveRoom.steps exampleRegistry "x" "B") = false := by
  decide

end ChatWebSocket
